import Mathlib

/-!
# gossie: tuple codec and bool-string codec

A shallow embedding of `src/gossie/tupletype.go` and `src/gossie/boolstringtype.go`.

* A Go `[]byte` is a list of bytes; a `nil` slice returned next to an error is `none`.
* A Go `(T, error)` result is a pair whose second component is `none` for a `nil` error.
* A call that does not return (a Go panic) is `Outcome.panic`.
* `unpackTuple` and `newField` are called by the two files and declared outside them: they
  are the parameters `unpack` and `newField` of the functions that call them.
* The record instance `rv` reached by the pointer-dereference loop at the head of
  `MarshalCassandra` / `UnmarshalCassandra` is a map from struct member index to member value.
-/

set_option autoImplicit false

namespace gossie

/-- One octet. -/
abbrev Byte := Fin 256

/-- A Go byte slice. -/
abbrev Bytes := List Byte

/-- The errors built by the two source files; `fieldError` stands for an error value
produced by the field layer (`marshalValue`, `unmarshalValue`, `newField`). -/
inductive Error where
  /-- The text "Cannot marshal if field in tuple skipped". -/
  | tupleFieldSkipped
  /-- The text "Invalid tuple tag in struct: T: cause". -/
  | invalidTupleTag (typeName : String) (tag : String)
  /-- The text "Tuple index repeated in struct T: i". -/
  | tupleIndexRepeated (typeName : String) (index : Int)
  /-- The text "Error in struct T: cause". -/
  | inStruct (typeName : String) (cause : Error)
  /-- The text "invalid boolstring: b". -/
  | invalidBoolString (b : Bytes)
  /-- An error value coming from the field layer. -/
  | fieldError (msg : String)
  deriving DecidableEq, Repr

/-- Result of a Go call: it returns a value, or it panics. -/
inductive Outcome (α : Type) where
  | ret (a : α)
  | panic
  deriving DecidableEq, Repr

/-! ## boolstringtype.go -/

/-- The bytes of a text of ASCII characters, as `[]byte(s)` gives them. -/
def strBytes (s : String) : Bytes :=
  s.toList.map (fun c => Fin.ofNat c.toNat)

namespace boolStringMarshaler

/-- `strconv.FormatBool`. -/
def FormatBool (b : Bool) : String :=
  if b then "true" else "false"

/-- `boolStringMarshaler.MarshalCassandra`: the pointee `*m.b` is the argument. -/
def MarshalCassandra (mb : Bool) : Option Bytes × Option Error :=
  (some (strBytes (FormatBool mb)), none)

/-- `boolStringMarshaler.UnmarshalCassandra`: `mb` is the pointee `*m.b` before the call;
the result is the pointee after the call and the returned error. -/
def UnmarshalCassandra (b : Bytes) (mb : Bool) : Bool × Option Error :=
  if b = strBytes "true" then (true, none)
  else if b = strBytes "" ∨ b = strBytes "false" then (false, none)
  else (mb, some (Error.invalidBoolString b))

end boolStringMarshaler

/-! ## The field layer and the length-prefixed component protocol -/

/-- The record instance `rv`: struct member index to member value. -/
abbrev Record (Val : Type) := Nat → Val

/-- Modelled from the spec: the `field` type of the field layer is declared outside the
two source files.  Spec 2 and 6: a field represents one struct member (`index`, the first
argument of `newField`) and has two operations, which are parameters here, typed as the
call sites use them.  `marshalValue` gives the payload or an error; `unmarshalValue`
mutates the instance in place and may return an error. -/
structure field (Val : Type) where
  index : Nat
  marshalValue : Record Val → Except Error Bytes
  unmarshalValue : Bytes → Record Val → Record Val × Option Error

/-- The four bytes of `n` as an unsigned 32-bit big-endian integer (`uint32(n)`). -/
def be32 (n : Nat) : Bytes :=
  [Fin.ofNat (n / 2 ^ 24), Fin.ofNat (n / 2 ^ 16), Fin.ofNat (n / 2 ^ 8), Fin.ofNat n]

/-- The unsigned integer that four big-endian bytes stand for. -/
def beU32 (a b c d : Byte) : Nat :=
  a.val * 2 ^ 24 + b.val * 2 ^ 16 + c.val * 2 ^ 8 + d.val

/-- Modelled from the spec: `packTuple` is not in the two source files.  Spec 4.4, Pack: a
payload is emitted as `length(4 bytes, big-endian, unsigned) ++ payload`. -/
def packTuple (component : Bytes) : Bytes :=
  be32 component.length ++ component

/-- Modelled from the spec: the loop of `unpackTuple` (spec 4.4, Unpack); `fuel` bounds
the number of components read. -/
def unpackAux : Nat → Bytes → Option (List Bytes)
  | _, [] => some []
  | fuel + 1, a :: b :: c :: d :: rest =>
      if rest.length < beU32 a b c d then none
      else (unpackAux fuel (rest.drop (beU32 a b c d))).map
        (fun cs => rest.take (beU32 a b c d) :: cs)
  | _, _ => none

/-- Modelled from the spec: `unpackTuple` is not in the two source files.  Spec 4.4, Unpack:
repeatedly read 4 bytes as a length, then that many payload bytes, until the buffer is
exhausted.  A buffer whose declared length (or whose length prefix itself) would read past
the end is the malformed-input condition, a deterministic failure: `none`.  Every
component takes at least four bytes of the buffer, so the fuel never runs out. -/
def unpackTuple (b : Bytes) : Option (List Bytes) :=
  unpackAux b.length b

/-- The function `unpack`, of the type that line 80 of tupletype.go gives `unpackTuple`,
hands back for every well-formed buffer the component list of spec 4.4.  Nothing is asked
of it on a malformed buffer. -/
def Unpacks (unpack : Bytes → List Bytes) : Prop :=
  ∀ (b : Bytes) (comps : List Bytes), unpackTuple b = some comps → unpack b = comps

/-- Modelled from the spec: an example of the function called at line 80.  It hands back
the component list of spec 4.4 for a well-formed buffer and, as the choice of this example
alone, the empty list for a malformed one. -/
def exampleUnpack (b : Bytes) : List Bytes :=
  (unpackTuple b).getD []

/-! ## tupletype.go -/

/-- Go struct `tupleType`; a `nil` entry of `tupleOrderedFields` is `none`. -/
structure tupleType (Val : Type) where
  tupleOrderedFields : List (Option (field Val))

namespace tupleMarshaler

/-- The `range` loop of `MarshalCassandra` (lines 58-69); `tuple` is the buffer built so
far. -/
def marshalLoop {Val : Type} (rv : Record Val) :
    List (Option (field Val)) → Bytes → Option Bytes × Option Error
  | [], tuple => (some tuple, none)
  | none :: _, _ => (none, some Error.tupleFieldSkipped)
  | some f :: fs, tuple =>
      match f.marshalValue rv with
      | Except.error err => (none, some err)
      | Except.ok result => marshalLoop rv fs (tuple ++ packTuple result)

/-- `tupleMarshaler.MarshalCassandra` on the dereferenced instance `rv`. -/
def MarshalCassandra {Val : Type} (tt : tupleType Val) (rv : Record Val) :
    Option Bytes × Option Error :=
  marshalLoop rv tt.tupleOrderedFields []

/-- The `range` loop of `UnmarshalCassandra` (lines 81-96) from slot index `i` on. -/
def unmarshalLoop {Val : Type} (components : List Bytes) :
    List (Option (field Val)) → Nat → Record Val → Record Val × Option Error
  | [], _, rv => (rv, none)
  | f :: fs, i, rv =>
      match components[i]? with
      | none => (rv, none)
      | some c =>
          match f with
          | none => unmarshalLoop components fs (i + 1) rv
          | some f =>
              match f.unmarshalValue c rv with
              | (rv1, some err) => (rv1, some err)
              | (rv1, none) => unmarshalLoop components fs (i + 1) rv1

/-- `tupleMarshaler.UnmarshalCassandra` on the dereferenced (allocated if nil) instance
`rv`: the instance after the call and the returned error.  `unpack` is the function
`unpackTuple` called at line 80, which is not in the two source files: the call site takes
a component list from it and nothing else. -/
def UnmarshalCassandra {Val : Type} (unpack : Bytes → List Bytes) (tt : tupleType Val)
    (b : Bytes) (rv : Record Val) : Record Val × Option Error :=
  unmarshalLoop (unpack b) tt.tupleOrderedFields 0 rv

end tupleMarshaler

/-! ### Schema construction -/

/-- The part of `reflect.StructField` that is read: the member name, the kind of its type
and the key/value pairs of its tag. -/
structure StructField where
  Name : String
  Kind : String
  Tag : List (String × String)

/-- `reflect.StructTag.Get`: the value of the first pair with that key, `""` without one. -/
def StructField.Get (sf : StructField) (key : String) : String :=
  match sf.Tag.find? (fun kv => kv.1 == key) with
  | some kv => kv.2
  | none => ""

/-- A struct `reflect.Type`: its name and its members (`NumField`, `Field (i)`). -/
structure StructType where
  Name : String
  Fields : List StructField

/-- The digits loop of `strconv.Atoi`, base 10. -/
def atoiDigits : List Char → Nat → Option Nat
  | [], acc => some acc
  | c :: cs, acc =>
      if 48 ≤ c.toNat ∧ c.toNat ≤ 57 then atoiDigits cs (acc * 10 + (c.toNat - 48)) else none

/-- Go `strconv.Atoi` for a 64-bit `int`: an optional sign, then one or more decimal
digits, the value within the range of `int`; `none` is a syntax or range error. -/
def Atoi (s : String) : Option Int :=
  match s.toList with
  | [] => none
  | c :: cs =>
      if c.toNat = 45 then
        if cs = [] then none
        else (atoiDigits cs 0).bind (fun n => if n ≤ 2 ^ 63 then some (-(n : Int)) else none)
      else if c.toNat = 43 then
        if cs = [] then none
        else (atoiDigits cs 0).bind (fun n => if n < 2 ^ 63 then some (n : Int) else none)
      else (atoiDigits (c :: cs) 0).bind (fun n => if n < 2 ^ 63 then some (n : Int) else none)

/-- A Go index expression `xs[i]` with an `int` index: `none` is the run-time panic
"index out of range". -/
def goIndex {α : Type} (xs : List α) (i : Int) : Option α :=
  if i < 0 then none else xs[i.toNat]?

/-- Go's `int` arithmetic on a 64-bit platform: the result wraps around in two's
complement. -/
def wrapInt64 (x : Int) : Int :=
  (x + 2 ^ 63) % 2 ^ 64 - 2 ^ 63

/-- A slice of `n` slots can be allocated: `n` is within `maxLen`, the largest number of
slots the Go runtime provides for a slice on the platform at hand, and is an `int`. -/
abbrev Allocatable (maxLen n : Nat) : Prop :=
  n ≤ maxLen ∧ n < 2 ^ 63

/-- Lines 114-117: when `tupleInt` is not below the slot count, `make` builds
`1 + tupleInt - len` empty slots and `append` adds them to the slot array.  `none` is the
run-time panic of `make` or `append` ("len out of range"): the count, computed in `int`,
is negative, or the extended array cannot be allocated. -/
def growSlots {Val : Type} (maxLen : Nat) (slots : List (Option (field Val))) (tupleInt : Int) :
    Option (List (Option (field Val))) :=
  if tupleInt ≥ (slots.length : Int) then
    if wrapInt64 (wrapInt64 (1 + tupleInt) - (slots.length : Int)) < 0
        ∨ ¬ Allocatable maxLen
            (slots.length
              + (wrapInt64 (wrapInt64 (1 + tupleInt) - (slots.length : Int))).toNat) then
      none
    else
      some (slots ++ List.replicate
        (wrapInt64 (wrapInt64 (1 + tupleInt) - (slots.length : Int))).toNat none)
  else some slots

/-- How one pass through the body of the `for` loop ends: the loop goes on to the next
member with the slot array `slots`, or `newTupleType` is left with the result `r`. -/
inductive LoopStep (Val : Type) where
  | next (slots : List (Option (field Val)))
  | done (r : Outcome (Option (tupleType Val) × Option Error))

/-- The body of the `for` loop of `newTupleType` (lines 105-127) for member `i`, `sf` being
`t.Field (i)` and `slots` being `tt.tupleOrderedFields`.  `newField` belongs to the field
layer and is a parameter: it gives a field, no field (`nil, nil`) or an error.  `maxLen`
is the largest slice the runtime provides. -/
def newTupleTypeBody {Val : Type} (maxLen : Nat)
    (newField : Nat → StructField → Except Error (Option (field Val))) (tName : String)
    (i : Nat) (sf : StructField) (slots : List (Option (field Val))) : LoopStep Val :=
  if sf.Get "tuple" = "" then LoopStep.next slots
  else
    match Atoi (sf.Get "tuple") with
    | none =>
        LoopStep.done (Outcome.ret (none, some (Error.invalidTupleTag tName (sf.Get "tuple"))))
    | some tupleInt =>
        match growSlots maxLen slots tupleInt with
        | none => LoopStep.done Outcome.panic
        | some slots1 =>
            match goIndex slots1 tupleInt with
            | none => LoopStep.done Outcome.panic
            | some (some _) =>
                LoopStep.done (Outcome.ret (none, some (Error.tupleIndexRepeated tName tupleInt)))
            | some none =>
                match newField i sf with
                | Except.error err =>
                    LoopStep.done (Outcome.ret (none, some (Error.inStruct tName err)))
                | Except.ok none => LoopStep.next slots1
                | Except.ok (some f) => LoopStep.next (slots1.set tupleInt.toNat (some f))

/-- The `for` loop of `newTupleType` (lines 104-129) from member `i` on. -/
def newTupleTypeLoop {Val : Type} (maxLen : Nat)
    (newField : Nat → StructField → Except Error (Option (field Val))) (tName : String) :
    List StructField → Nat → List (Option (field Val)) →
      Outcome (Option (tupleType Val) × Option Error)
  | [], _, slots => Outcome.ret (some ⟨slots⟩, none)
  | sf :: rest, i, slots =>
      match newTupleTypeBody maxLen newField tName i sf slots with
      | LoopStep.next slots1 => newTupleTypeLoop maxLen newField tName rest (i + 1) slots1
      | LoopStep.done r => r

/-- `newTupleType`: the slot array starts with `t.NumField ()` empty slots, one for each
member of the type `t`, which is itself in memory: this first `make` is taken to succeed. -/
def newTupleType {Val : Type} (maxLen : Nat)
    (newField : Nat → StructField → Except Error (Option (field Val)))
    (t : StructType) : Outcome (Option (tupleType Val) × Option Error) :=
  newTupleTypeLoop maxLen newField t.Name t.Fields 0 (List.replicate t.Fields.length none)

/-! ## Example record types -/

/-- Member values of the example records. -/
inductive GoVal where
  | bool (b : Bool)
  | str (s : Bytes)
  | int (n : Nat)
  deriving DecidableEq, Repr

/-- Modelled from the spec: the field layer is not in the two source files.  A string
member (spec 8, end-to-end example): the payload is the text itself. -/
def stringField (index : Nat) : field GoVal where
  index := index
  marshalValue := fun rv =>
    match rv index with
    | GoVal.str s => Except.ok s
    | _ => Except.error (Error.fieldError "not a string")
  unmarshalValue := fun b rv => (Function.update rv index (GoVal.str b), none)

/-- Modelled from the spec: the field layer is not in the two source files.  A 32-bit
unsigned integer member (spec 8, end-to-end example): four bytes, big-endian. -/
def uint32Field (index : Nat) : field GoVal where
  index := index
  marshalValue := fun rv =>
    match rv index with
    | GoVal.int n => if n < 2 ^ 32 then Except.ok (be32 n) else Except.error (Error.fieldError "range")
    | _ => Except.error (Error.fieldError "not an integer")
  unmarshalValue := fun b rv =>
    match b with
    | [b0, b1, b2, b3] => (Function.update rv index (GoVal.int (beU32 b0 b1 b2 b3)), none)
    | _ => (rv, some (Error.fieldError "wrong length"))

/-- Modelled from the spec: the field layer is not in the two source files.  A boolean
member carried by the bool-string codec of `boolstringtype.go`. -/
def boolStringField (index : Nat) : field GoVal where
  index := index
  marshalValue := fun rv =>
    match rv index with
    | GoVal.bool b =>
        match boolStringMarshaler.MarshalCassandra b with
        | (some bs, none) => Except.ok bs
        | (_, some err) => Except.error err
        | (none, none) => Except.ok []
    | _ => Except.error (Error.fieldError "not a bool")
  unmarshalValue := fun b rv =>
    match boolStringMarshaler.UnmarshalCassandra b
        (match rv index with
          | GoVal.bool old => old
          | _ => false) with
    | (mb, none) => (Function.update rv index (GoVal.bool mb), none)
    | (_, some err) => (rv, some err)

/-- A record whose members all hold the boolean false. -/
def zeroRecord : Record GoVal := fun _ => GoVal.bool false

/-- A member holding a run of zero bytes, of which only the number is kept: the payload
of the value `n` is `n` zero bytes, and a payload is read back as its length. -/
def runField (index : Nat) : field Nat where
  index := index
  marshalValue := fun rv => Except.ok (List.replicate (rv index) 0)
  unmarshalValue := fun b rv => (Function.update rv index b.length, none)

/-- Modelled from the spec: `newField` is not in the two source files.  Spec 6, bindField:
a field, no field, or an error.  Here a member tagged skip:"true" gets no field, a bool, a
string and a uint32 member get the example field of their kind, any other kind is an
error. -/
def exampleNewField (i : Nat) (sf : StructField) : Except Error (Option (field GoVal)) :=
  if sf.Get "skip" = "true" then Except.ok none
  else if sf.Kind = "bool" then Except.ok (some (boolStringField i))
  else if sf.Kind = "string" then Except.ok (some (stringField i))
  else if sf.Kind = "uint32" then Except.ok (some (uint32Field i))
  else Except.error (Error.fieldError "unsupported type")

/-- The `Config` struct of the doc comment of `tupleType`. -/
def Config : StructType :=
  ⟨"Config", [⟨"Admin", "bool", [("tuple", "0")]⟩, ⟨"TZ", "string", [("tuple", "1")]⟩]⟩

/-- The `Config` struct with a third member at position 4. -/
def Config3 : StructType :=
  ⟨"Config3", [⟨"Admin", "bool", [("tuple", "0")]⟩, ⟨"TZ", "string", [("tuple", "1")]⟩,
    ⟨"Level", "uint32", [("tuple", "4")]⟩]⟩

/-- The `Config` struct with one more member, which has no tuple tag. -/
def ConfigNote : StructType :=
  ⟨"ConfigNote", [⟨"Admin", "bool", [("tuple", "0")]⟩, ⟨"TZ", "string", [("tuple", "1")]⟩,
    ⟨"Note", "string", []⟩]⟩

/-- A struct whose only member has no tuple tag. -/
def Untagged : StructType :=
  ⟨"Untagged", [⟨"Note", "string", []⟩]⟩

/-- A struct whose two members both declare position 0, the first being one the field
layer declines. -/
def SkippedTwin : StructType :=
  ⟨"SkippedTwin", [⟨"Old", "string", [("tuple", "0"), ("skip", "true")]⟩,
    ⟨"New", "string", [("tuple", "0")]⟩]⟩

/-- A struct whose two members both declare position 0 and are both wrapped. -/
def Twin : StructType :=
  ⟨"Twin", [⟨"A", "string", [("tuple", "0")]⟩, ⟨"B", "string", [("tuple", "0")]⟩]⟩

/-- The largest number of `*field` slots the Go runtime provides on a 64-bit platform
(`maxAlloc` is 2^48 bytes, a slot takes 8); the limit used in the examples. -/
def goMaxLen : Nat := 2 ^ 45

/-- A struct whose only member declares the largest `int`, 2^63 - 1, as its position. -/
def Huge : StructType :=
  ⟨"Huge", [⟨"A", "string", [("tuple", "9223372036854775807")]⟩]⟩

/-- A struct whose two members both declare the largest `int` as their position. -/
def HugeTwin : StructType :=
  ⟨"HugeTwin", [⟨"A", "string", [("tuple", "9223372036854775807")]⟩,
    ⟨"B", "string", [("tuple", "9223372036854775807")]⟩]⟩

/-- A struct whose only member declares position 2. -/
def Sparse : StructType :=
  ⟨"Sparse", [⟨"A", "string", [("tuple", "2")]⟩]⟩

/-- A struct whose only member declares the position -1. -/
def Negative : StructType :=
  ⟨"Negative", [⟨"A", "string", [("tuple", "-1")]⟩]⟩

/-- A struct whose second member has a tuple tag that is not an integer. -/
def Malformed : StructType :=
  ⟨"Malformed", [⟨"A", "string", [("tuple", "0")]⟩, ⟨"B", "string", [("tuple", "x")]⟩]⟩

/-- A struct whose first member declares the position -1 and whose second member has a
tuple tag that is not an integer. -/
def NegativeThenMalformed : StructType :=
  ⟨"NegativeThenMalformed",
    [⟨"A", "string", [("tuple", "-1")]⟩, ⟨"B", "string", [("tuple", "x")]⟩]⟩

/-! ## Notions used in the statements -/

/-- The instance after `unmarshalValue` of every bound slot below `i` that has a component
has been applied to its component, in increasing order of the slot index, starting from
`rv` (errors are not looked at here). -/
def appliedUpTo {Val : Type} (schema : List (Option (field Val))) (components : List Bytes)
    (rv : Record Val) : Nat → Record Val
  | 0 => rv
  | i + 1 =>
      match schema[i]?, components[i]? with
      | some (some f), some c => (f.unmarshalValue c (appliedUpTo schema components rv i)).1
      | _, _ => appliedUpTo schema components rv i

/-- The slot array after the extension of lines 114-117, when `make` and `append` go
through: `tupleInt + 1` slots when `tupleInt` is not below the slot count, the array as it
is otherwise. -/
def extendSlots {Val : Type} (slots : List (Option (field Val))) (tupleInt : Int) :
    List (Option (field Val)) :=
  if tupleInt ≥ (slots.length : Int) then
    slots ++ List.replicate (1 + tupleInt - (slots.length : Int)).toNat none
  else slots

/-- One more than the position a member declares; 0 for a member without a tuple tag (or
with one that is not an integer). -/
def positionSucc (sf : StructField) : Nat :=
  if sf.Get "tuple" = "" then 0
  else
    match Atoi (sf.Get "tuple") with
    | some q => (q + 1).toNat
    | none => 0

/-- The largest declared position plus one over the members; 0 when none declares one. -/
def maxPositionSucc (fields : List StructField) : Nat :=
  (fields.map positionSucc).foldr max 0

/-- The member indices bound in the slots, slot by slot. -/
def slotIndices {Val : Type} (tt : tupleType Val) : List (Option Nat) :=
  tt.tupleOrderedFields.map (Option.map field.index)

/-- The member declares the position `p`: it has a tuple tag, and the tag is the text of
the integer `p`. -/
def Declares (sf : StructField) (p : Nat) : Prop :=
  sf.Get "tuple" ≠ "" ∧ Atoi (sf.Get "tuple") = some (p : Int)

/-! ## Properties -/

section BoolString
open boolStringMarshaler

/-- C10. Bool-string unmarshal: the bytes of "true" set the target to true, the empty
byte string and the bytes of "false" set it to false, every other byte string returns
the invalid-boolstring error (among them "yes", "TRUE" and "1") and leaves the target as it
was; an error is returned if and only if the bytes are none of those three texts. -/
theorem boolString_unmarshal (b : Bytes) (mb : Bool) :
    UnmarshalCassandra b mb =
        (if b = [116, 114, 117, 101] then (true, none)
         else if b = [] ∨ b = [102, 97, 108, 115, 101] then (false, none)
         else (mb, some (Error.invalidBoolString b)))
    ∧ UnmarshalCassandra (strBytes "true") mb = (true, none)
    ∧ UnmarshalCassandra (strBytes "false") mb = (false, none)
    ∧ UnmarshalCassandra (strBytes "") mb = (false, none)
    ∧ (∃ e, (UnmarshalCassandra (strBytes "yes") mb).2 = some e)
    ∧ (∃ e, (UnmarshalCassandra (strBytes "TRUE") mb).2 = some e)
    ∧ (∃ e, (UnmarshalCassandra (strBytes "1") mb).2 = some e)
    ∧ ((∃ e, (UnmarshalCassandra b mb).2 = some e) ↔
        (b ≠ strBytes "true" ∧ b ≠ strBytes "" ∧ b ≠ strBytes "false")) := by
  have ht : strBytes "true" = [116, 114, 117, 101] := by decide
  have hf : strBytes "false" = [102, 97, 108, 115, 101] := by decide
  have he : strBytes "" = [] := by decide
  refine ⟨?_, ?_, ?_, ?_, ?_, ?_, ?_, ?_⟩
  · simp only [UnmarshalCassandra, ht, hf, he]
  · simp [UnmarshalCassandra]
  · simp [UnmarshalCassandra, ht, hf]
  · simp [UnmarshalCassandra, ht, he]
  · exact ⟨Error.invalidBoolString (strBytes "yes"), by cases mb <;> decide⟩
  · exact ⟨Error.invalidBoolString (strBytes "TRUE"), by cases mb <;> decide⟩
  · exact ⟨Error.invalidBoolString (strBytes "1"), by cases mb <;> decide⟩
  · unfold UnmarshalCassandra
    by_cases h1 : b = strBytes "true"
    · simp [h1]
    · by_cases h2 : b = strBytes "" ∨ b = strBytes "false"
      · simp only [h1, h2, if_true, if_false]
        constructor
        · rintro ⟨e, he⟩
          simp at he
        · rintro ⟨_, h3, h4⟩
          rcases h2 with h2 | h2
          · exact absurd h2 h3
          · exact absurd h2 h4
      · simp only [h1, h2, if_false]
        push_neg at h2
        exact ⟨fun _ => ⟨h1, h2.1, h2.2⟩, fun _ => ⟨_, rfl⟩⟩

end BoolString

section Marshal
open tupleMarshaler

variable {Val : Type}

theorem marshalLoop_skipped (rv : Record Val) (fs : List (Option (field Val)))
    (h : none ∈ fs) (tuple : Bytes) :
    ∃ e, marshalLoop rv fs tuple = (none, some e) := by
  induction fs generalizing tuple with
  | nil => simp at h
  | cons s fs ih =>
      cases s with
      | none => exact ⟨_, rfl⟩
      | some f =>
          have h1 : none ∈ fs := by simpa using h
          simp only [marshalLoop]
          cases hm : f.marshalValue rv with
          | error err => exact ⟨err, rfl⟩
          | ok result => exact ih h1 _

/-- C2. Unbound-on-write is fatal: when the schema has an empty slot, MarshalCassandra
returns an error together with the nil buffer, for every value and whatever the bound
fields return. -/
theorem marshal_unbound_fatal (tt : tupleType Val) (rv : Record Val)
    (h : none ∈ tt.tupleOrderedFields) :
    ∃ e, MarshalCassandra tt rv = (none, some e) :=
  marshalLoop_skipped rv tt.tupleOrderedFields h []

/-- Witness of C2: the schema with a bound string slot followed by an empty slot. -/
theorem marshal_unbound_fatal_witness :
    none ∈ (tupleType.mk [some (stringField 0), none]).tupleOrderedFields ∧
    ∃ e, MarshalCassandra (tupleType.mk [some (stringField 0), none])
      (fun _ => GoVal.str [97]) = (none, some e) :=
  ⟨by simp, marshal_unbound_fatal _ _ (by simp)⟩

/-- One frame of the packed tuple buffer: the 4-byte big-endian length, then the payload. -/
theorem packTuple_length (p : Bytes) : (packTuple p).length = 4 + p.length := by
  simp only [packTuple, be32, List.length_append, List.length_cons, List.length_nil]

theorem marshalLoop_frames (rv : Record Val) (fs : List (Option (field Val)))
    (payloads : List Bytes)
    (h : List.Forall₂ (fun s p => ∃ f, s = some f ∧ f.marshalValue rv = Except.ok p) fs payloads)
    (tuple : Bytes) :
    marshalLoop rv fs tuple =
      (some (tuple ++ (payloads.map (fun p => be32 p.length ++ p)).flatten), none) := by
  induction h generalizing tuple with
  | nil => simp [marshalLoop]
  | cons hsp _ ih =>
      obtain ⟨f, rfl, hm⟩ := hsp
      simp only [marshalLoop, hm, ih, packTuple, List.map_cons, List.flatten_cons,
        List.append_assoc]

theorem bound_payloads (rv : Record Val) (fs : List (Option (field Val)))
    (hm : ∀ s ∈ fs, ∃ f p, s = some f ∧ f.marshalValue rv = Except.ok p) :
    ∃ payloads : List Bytes,
      List.Forall₂ (fun s p => ∃ f, s = some f ∧ f.marshalValue rv = Except.ok p) fs payloads := by
  induction fs with
  | nil => exact ⟨[], List.Forall₂.nil⟩
  | cons s fs ih =>
      obtain ⟨ps, hps⟩ := ih (fun s1 h1 => hm s1 (List.mem_cons_of_mem _ h1))
      obtain ⟨f, p, hs, hp⟩ := hm s (List.mem_cons_self _ _)
      exact ⟨p :: ps, List.Forall₂.cons ⟨f, hs, hp⟩ hps⟩

theorem beU32_be32 (n : Nat) :
    beU32 (Fin.ofNat (n / 2 ^ 24)) (Fin.ofNat (n / 2 ^ 16)) (Fin.ofNat (n / 2 ^ 8)) (Fin.ofNat n)
      = n % 2 ^ 32 := by
  show (n / 2 ^ 24) % 256 * 2 ^ 24 + (n / 2 ^ 16) % 256 * 2 ^ 16 + (n / 2 ^ 8) % 256 * 2 ^ 8
      + n % 256 = n % 2 ^ 32
  omega

theorem frames_length (payloads : List Bytes) :
    ((payloads.map (fun p => be32 p.length ++ p)).flatten).length
      = (payloads.map (fun p => 4 + p.length)).sum := by
  induction payloads with
  | nil => rfl
  | cons p ps ih =>
      simp only [List.map_cons, List.flatten_cons, List.length_append, List.sum_cons, ih]
      simp [be32]

theorem payloads_origin (rv : Record Val) (slots : List (Option (field Val)))
    (payloads : List Bytes)
    (h : List.Forall₂ (fun s p => ∃ f, s = some f ∧ f.marshalValue rv = Except.ok p)
      slots payloads) :
    ∀ p ∈ payloads, ∃ s ∈ slots, ∃ f, s = some f ∧ f.marshalValue rv = Except.ok p := by
  induction h with
  | nil => intro p hp; simp at hp
  | cons hsp _ ih =>
      intro p hp
      rcases List.mem_cons.mp hp with rfl | hp
      · exact ⟨_, List.mem_cons_self _ _, hsp⟩
      · obtain ⟨s, hs, hf⟩ := ih p hp
        exact ⟨s, List.mem_cons_of_mem _ hs, hf⟩

theorem beU32_be32_small (n : Nat) (h : n < 2 ^ 32) :
    beU32 (Fin.ofNat (n / 2 ^ 24)) (Fin.ofNat (n / 2 ^ 16)) (Fin.ofNat (n / 2 ^ 8)) (Fin.ofNat n)
      = n := by
  rw [beU32_be32]
  exact Nat.mod_eq_of_lt h

/-- C8, as amended.  Marshal output: when every slot is bound, every field's marshalValue
succeeds on the value and every payload it returns is shorter than 2^32 bytes,
MarshalCassandra succeeds and returns the frames of the slots' payloads concatenated in
slot order with nothing between or after them, a frame being the four bytes that stand for
the payload length as a big-endian unsigned 32-bit integer followed by the payload; the
output length is the sum over the slots of 4 plus the payload length, and the empty schema
gives the empty buffer. -/
theorem marshal_output (tt : tupleType Val) (rv : Record Val)
    (hm : ∀ s ∈ tt.tupleOrderedFields, ∃ f p, s = some f ∧ f.marshalValue rv = Except.ok p)
    (hlen : ∀ s ∈ tt.tupleOrderedFields, ∀ f p, s = some f →
      f.marshalValue rv = Except.ok p → p.length < 2 ^ 32) :
    ∃ payloads : List Bytes,
      List.Forall₂ (fun s p => ∃ f, s = some f ∧ f.marshalValue rv = Except.ok p)
        tt.tupleOrderedFields payloads
      ∧ MarshalCassandra tt rv =
          (some ((payloads.map (fun p => be32 p.length ++ p)).flatten), none)
      ∧ (∀ p ∈ payloads, ∃ a b c d, be32 p.length = [a, b, c, d]
            ∧ beU32 a b c d = p.length)
      ∧ ((payloads.map (fun p => be32 p.length ++ p)).flatten).length
          = (payloads.map (fun p => 4 + p.length)).sum
      ∧ (tt.tupleOrderedFields = [] → MarshalCassandra tt rv = (some [], none)) := by
  obtain ⟨payloads, hps⟩ := bound_payloads rv tt.tupleOrderedFields hm
  refine ⟨payloads, hps, ?_, ?_, frames_length payloads, ?_⟩
  · simpa [MarshalCassandra] using marshalLoop_frames rv tt.tupleOrderedFields payloads hps []
  · intro p hp
    obtain ⟨s, hs, f, hsf, hf⟩ := payloads_origin rv tt.tupleOrderedFields payloads hps p hp
    exact ⟨_, _, _, _, rfl, beU32_be32_small p.length (hlen s hs f p hsf hf)⟩
  · intro h
    simp [MarshalCassandra, h, marshalLoop]

/-- Witness of C8: a string slot and an integer slot, holding "abc" and 7. -/
theorem marshal_output_witness :
    MarshalCassandra (tupleType.mk [some (stringField 0), some (uint32Field 1)])
        (fun i => if i = 0 then GoVal.str [97, 98, 99] else GoVal.int 7)
      = (some [0, 0, 0, 3, 97, 98, 99, 0, 0, 0, 4, 0, 0, 0, 7], none)
    ∧ ∃ payloads : List Bytes,
      List.Forall₂ (fun s p => ∃ f, s = some f ∧
          f.marshalValue (fun i => if i = 0 then GoVal.str [97, 98, 99] else GoVal.int 7)
            = Except.ok p)
        [some (stringField 0), some (uint32Field 1)] payloads
      ∧ MarshalCassandra (tupleType.mk [some (stringField 0), some (uint32Field 1)])
          (fun i => if i = 0 then GoVal.str [97, 98, 99] else GoVal.int 7) =
          (some ((payloads.map (fun p => be32 p.length ++ p)).flatten), none)
      ∧ (∀ p ∈ payloads, ∃ a b c d, be32 p.length = [a, b, c, d]
            ∧ beU32 a b c d = p.length)
      ∧ ((payloads.map (fun p => be32 p.length ++ p)).flatten).length
          = (payloads.map (fun p => 4 + p.length)).sum
      ∧ ((tupleType.mk [some (stringField 0), some (uint32Field 1)]).tupleOrderedFields = [] →
          MarshalCassandra (tupleType.mk [some (stringField 0), some (uint32Field 1)])
            (fun i => if i = 0 then GoVal.str [97, 98, 99] else GoVal.int 7) = (some [], none)) :=
  ⟨by decide,
   marshal_output (tupleType.mk [some (stringField 0), some (uint32Field 1)])
    (fun i => if i = 0 then GoVal.str [97, 98, 99] else GoVal.int 7)
    (by
      intro s hs
      simp only [List.mem_cons, List.mem_singleton, List.not_mem_nil, or_false] at hs
      rcases hs with rfl | rfl
      · exact ⟨stringField 0, [97, 98, 99], rfl, rfl⟩
      · exact ⟨uint32Field 1, be32 7, rfl, rfl⟩)
    (by
      intro s hs f p hsf hf
      simp only [List.mem_cons, List.mem_singleton, List.not_mem_nil, or_false] at hs
      rcases hs with rfl | rfl
      · have hf1 : f = stringField 0 := (Option.some.inj hsf).symm
        subst hf1
        have hp : p = [97, 98, 99] := (Except.ok.inj hf).symm
        subst hp
        decide
      · have hf1 : f = uint32Field 1 := (Option.some.inj hsf).symm
        subst hf1
        have hp : p = be32 7 := (Except.ok.inj hf).symm
        subst hp
        decide)⟩

theorem be32_of_multiple (n : Nat) (h : n % 2 ^ 32 = 0) : be32 n = [0, 0, 0, 0] := by
  have h1 : (Fin.ofNat (n / 2 ^ 24) : Byte) = 0 := Fin.ext (by
    show (n / 2 ^ 24) % 256 = 0
    omega)
  have h2 : (Fin.ofNat (n / 2 ^ 16) : Byte) = 0 := Fin.ext (by
    show (n / 2 ^ 16) % 256 = 0
    omega)
  have h3 : (Fin.ofNat (n / 2 ^ 8) : Byte) = 0 := Fin.ext (by
    show (n / 2 ^ 8) % 256 = 0
    omega)
  have h4 : (Fin.ofNat n : Byte) = 0 := Fin.ext (by
    show n % 256 = 0
    omega)
  simp only [be32, h1, h2, h3, h4]

theorem run_marshalValue (n : Nat) :
    (runField 0).marshalValue (fun _ => n) = Except.ok (List.replicate n 0) := rfl

/-- A run of `n` zero bytes, `n` a multiple of 2^32, through MarshalCassandra of the schema
with the run slot alone: four zero bytes and the run. -/
theorem run_marshal (n : Nat) (h32 : n % 2 ^ 32 = 0) :
    MarshalCassandra (tupleType.mk [some (runField 0)]) (fun _ => n)
      = (some ([0, 0, 0, 0] ++ List.replicate n 0), none) := by
  simp only [MarshalCassandra, marshalLoop, runField, packTuple, List.length_replicate,
    be32_of_multiple n h32, List.nil_append]

theorem beU32_ne_pow (a b c d : Byte) (n : Nat) (h : 2 ^ 32 ≤ n) : beU32 a b c d ≠ n := by
  have ha := a.isLt
  have hb := b.isLt
  have hc := c.isLt
  have hd := d.isLt
  unfold beU32
  omega

/-- Counterexample to C8 as stated: the schema with one bound slot and a value whose payload
is 2^32 bytes long.  The slot is bound and its marshalValue succeeds; MarshalCassandra
returns the four bytes 0 0 0 0 followed by the payload, and these four bytes stand for 0 as
a big-endian unsigned integer; no four bytes stand for the payload length. -/
theorem marshal_output_fails_on_long_payload :
    (∀ s ∈ (tupleType.mk [some (runField 0)]).tupleOrderedFields,
        ∃ f p, s = some f ∧ f.marshalValue (fun _ => 2 ^ 32) = Except.ok p)
    ∧ (runField 0).marshalValue (fun _ => 2 ^ 32) = Except.ok (List.replicate (2 ^ 32) 0)
    ∧ (List.replicate (2 ^ 32) (0 : Byte)).length = 2 ^ 32
    ∧ MarshalCassandra (tupleType.mk [some (runField 0)]) (fun _ => 2 ^ 32)
        = (some ([0, 0, 0, 0] ++ List.replicate (2 ^ 32) 0), none)
    ∧ beU32 0 0 0 0 = 0
    ∧ ∀ a b c d : Byte, beU32 a b c d ≠ (List.replicate (2 ^ 32) (0 : Byte)).length :=
  ⟨fun _ hs => ⟨runField 0, _, List.mem_singleton.mp hs, run_marshalValue (2 ^ 32)⟩,
    run_marshalValue (2 ^ 32),
    List.length_replicate _ _,
    run_marshal (2 ^ 32) (Nat.mod_self _),
    rfl,
    fun a b c d => beU32_ne_pow a b c d _ (Nat.le_of_eq (List.length_replicate _ _).symm)⟩

end Marshal

section Unpack

theorem unpackAux_fuel (fuel1 : Nat) : ∀ (fuel2 : Nat) (b : Bytes),
    b.length ≤ fuel1 → b.length ≤ fuel2 → unpackAux fuel1 b = unpackAux fuel2 b := by
  induction fuel1 with
  | zero =>
      intro fuel2 b h1 _
      have : b = [] := List.length_eq_zero.mp (Nat.le_zero.mp h1)
      subst this
      simp [unpackAux]
  | succ n ih =>
      intro fuel2 b h1 h2
      match b, fuel2, h1, h2 with
      | [], _, _, _ => simp [unpackAux]
      | [_], 0, _, h2 => simp at h2
      | [_], _ + 1, _, _ => simp [unpackAux]
      | [_, _], 0, _, h2 => simp at h2
      | [_, _], _ + 1, _, _ => simp [unpackAux]
      | [_, _, _], 0, _, h2 => simp at h2
      | [_, _, _], _ + 1, _, _ => simp [unpackAux]
      | a :: b :: c :: d :: rest, 0, _, h2 => simp at h2
      | a :: b :: c :: d :: rest, m + 1, h1, h2 =>
          simp only [unpackAux]
          simp only [List.length_cons] at h1 h2
          have hd : (rest.drop (beU32 a b c d)).length ≤ rest.length := by
            simp [List.length_drop]
          rw [ih m (rest.drop (beU32 a b c d)) (by omega) (by omega)]

theorem unpackTuple_nil : unpackTuple [] = some [] := rfl

theorem unpackTuple_frame (a b c d : Byte) (p rest : Bytes) (h : beU32 a b c d = p.length) :
    unpackTuple (a :: b :: c :: d :: (p ++ rest)) = (unpackTuple rest).map (fun cs => p :: cs) := by
  unfold unpackTuple
  simp only [List.length_cons, unpackAux, h, List.length_append]
  rw [if_neg (by omega), List.drop_left, List.take_left]
  rw [unpackAux_fuel _ rest.length rest (by omega) (le_refl _)]

theorem unpackTuple_packTuple (p rest : Bytes) (h : p.length < 2 ^ 32) :
    unpackTuple (packTuple p ++ rest) = (unpackTuple rest).map (fun cs => p :: cs) := by
  have := unpackTuple_frame _ _ _ _ p rest ((beU32_be32 p.length).trans (Nat.mod_eq_of_lt h))
  simpa [packTuple, be32] using this

theorem unpackTuple_frames (ps : List Bytes) (h : ∀ p ∈ ps, p.length < 2 ^ 32) :
    unpackTuple ((ps.map (fun p => be32 p.length ++ p)).flatten) = some ps := by
  induction ps with
  | nil => rfl
  | cons p ps ih =>
      have h1 := unpackTuple_packTuple p ((ps.map (fun p => be32 p.length ++ p)).flatten)
        (h p (List.mem_cons_self _ _))
      rw [ih (fun q hq => h q (List.mem_cons_of_mem _ hq))] at h1
      simpa [packTuple] using h1

end Unpack

section Unmarshal
open tupleMarshaler

variable {Val : Type}

theorem unmarshalLoop_break (comps : List Bytes) (s : Option (field Val))
    (fs : List (Option (field Val))) (i : Nat) (rv : Record Val) (h : comps[i]? = none) :
    unmarshalLoop comps (s :: fs) i rv = (rv, none) := by
  simp only [unmarshalLoop, h]

theorem unmarshalLoop_skip (comps : List Bytes) (fs : List (Option (field Val))) (i : Nat)
    (rv : Record Val) (c : Bytes) (h : comps[i]? = some c) :
    unmarshalLoop comps (none :: fs) i rv = unmarshalLoop comps fs (i + 1) rv := by
  simp only [unmarshalLoop, h]

theorem unmarshalLoop_ok (comps : List Bytes) (f : field Val) (fs : List (Option (field Val)))
    (i : Nat) (rv : Record Val) (c : Bytes) (h : comps[i]? = some c)
    (hok : (f.unmarshalValue c rv).2 = none) :
    unmarshalLoop comps (some f :: fs) i rv
      = unmarshalLoop comps fs (i + 1) (f.unmarshalValue c rv).1 := by
  simp only [unmarshalLoop, h]
  cases hr : f.unmarshalValue c rv with
  | mk rv1 e =>
      rw [hr] at hok
      simp only at hok
      subst hok
      rfl

theorem unmarshalLoop_err (comps : List Bytes) (f : field Val) (fs : List (Option (field Val)))
    (i : Nat) (rv : Record Val) (c : Bytes) (e : Error) (h : comps[i]? = some c)
    (herr : (f.unmarshalValue c rv).2 = some e) :
    unmarshalLoop comps (some f :: fs) i rv = ((f.unmarshalValue c rv).1, some e) := by
  simp only [unmarshalLoop, h]
  cases hr : f.unmarshalValue c rv with
  | mk rv1 e1 =>
      rw [hr] at herr
      simp only at herr
      subst herr
      rfl

theorem appliedUpTo_stable (schema : List (Option (field Val))) (comps : List Bytes)
    (rv : Record Val) (i k : Nat) (hik : i ≤ k)
    (h : schema.length ≤ i ∨ comps.length ≤ i) :
    appliedUpTo schema comps rv k = appliedUpTo schema comps rv i := by
  induction k with
  | zero =>
      have : i = 0 := Nat.le_zero.mp hik
      subst this
      rfl
  | succ k ih =>
      rcases Nat.eq_or_lt_of_le hik with heq | hlt
      · subst heq
        rfl
      · have hle : i ≤ k := Nat.lt_succ_iff.mp hlt
        rw [← ih hle]
        rcases h with h | h
        · have : schema[k]? = none := List.getElem?_eq_none (by omega)
          simp only [appliedUpTo, this]
        · have : comps[k]? = none := List.getElem?_eq_none (by omega)
          simp only [appliedUpTo, this]
          split <;> simp_all

/-- The loop from slot `i` on, started on the instance the earlier slots produced, when
no slot from `i` on fails. -/
theorem unmarshalLoop_applied_ok (schema : List (Option (field Val))) (comps : List Bytes)
    (rv : Record Val)
    (hok : ∀ (j : Nat) (g : field Val) (c : Bytes), schema[j]? = some (some g) →
      comps[j]? = some c → (g.unmarshalValue c (appliedUpTo schema comps rv j)).2 = none) :
    ∀ (fs : List (Option (field Val))) (i : Nat), schema.drop i = fs →
      unmarshalLoop comps fs i (appliedUpTo schema comps rv i)
        = (appliedUpTo schema comps rv schema.length, none) := by
  intro fs
  induction fs with
  | nil =>
      intro i hdrop
      have hlen : schema.length ≤ i := List.drop_eq_nil_iff.mp hdrop
      rw [appliedUpTo_stable schema comps rv schema.length i hlen (Or.inl (le_refl _))]
      rfl
  | cons s fs ih =>
      intro i hdrop
      have hi : i < schema.length := by
        by_contra hcon
        have := List.drop_eq_nil_iff.mpr (Nat.le_of_not_lt hcon)
        rw [this] at hdrop
        exact absurd hdrop (by simp)
      have hs : schema[i]? = some s := by
        have := congrArg (fun l => l[0]?) hdrop
        simpa [List.getElem?_drop] using this
      have hnext : schema.drop (i + 1) = fs := by
        have := congrArg List.tail hdrop
        simpa [List.tail_drop] using this
      cases hc : comps[i]? with
      | none =>
          rw [unmarshalLoop_break comps s fs i _ hc]
          have hcl : comps.length ≤ i := by
            by_contra hcon
            rw [List.getElem?_eq_getElem (Nat.lt_of_not_le hcon)] at hc
            exact absurd hc (by simp)
          rw [appliedUpTo_stable schema comps rv i schema.length (Nat.le_of_lt hi) (Or.inr hcl)]
      | some c =>
          cases s with
          | none =>
              rw [unmarshalLoop_skip comps fs i _ c hc]
              have hstep : appliedUpTo schema comps rv (i + 1) = appliedUpTo schema comps rv i := by
                simp only [appliedUpTo, hs]
              rw [← hstep]
              exact ih (i + 1) hnext
          | some f =>
              rw [unmarshalLoop_ok comps f fs i _ c hc (hok i f c hs hc)]
              have hstep : appliedUpTo schema comps rv (i + 1)
                  = (f.unmarshalValue c (appliedUpTo schema comps rv i)).1 := by
                simp only [appliedUpTo, hs, hc]
              rw [← hstep]
              exact ih (i + 1) hnext

/-- The loop from slot `i1` on, started on the instance the earlier slots produced, when
the first failing slot from `i1` on is slot `i`. -/
theorem unmarshalLoop_applied_err (schema : List (Option (field Val))) (comps : List Bytes)
    (rv : Record Val) (i : Nat) (f : field Val) (c : Bytes) (e : Error)
    (hf : schema[i]? = some (some f)) (hc : comps[i]? = some c)
    (herr : (f.unmarshalValue c (appliedUpTo schema comps rv i)).2 = some e) :
    ∀ (fs : List (Option (field Val))) (i1 : Nat), schema.drop i1 = fs → i1 ≤ i →
      (∀ (j : Nat) (g : field Val) (c1 : Bytes), i1 ≤ j → j < i → schema[j]? = some (some g) →
        comps[j]? = some c1 → (g.unmarshalValue c1 (appliedUpTo schema comps rv j)).2 = none) →
      unmarshalLoop comps fs i1 (appliedUpTo schema comps rv i1)
        = ((f.unmarshalValue c (appliedUpTo schema comps rv i)).1, some e) := by
  have hilen : i < schema.length := by
    by_contra hcon
    rw [List.getElem?_eq_none (Nat.le_of_not_lt hcon)] at hf
    exact absurd hf (by simp)
  have hclen : i < comps.length := by
    by_contra hcon
    rw [List.getElem?_eq_none (Nat.le_of_not_lt hcon)] at hc
    exact absurd hc (by simp)
  intro fs
  induction fs with
  | nil =>
      intro i1 hdrop hle _
      have hlen : schema.length ≤ i1 := List.drop_eq_nil_iff.mp hdrop
      omega
  | cons s fs ih =>
      intro i1 hdrop hle hok
      have hs : schema[i1]? = some s := by
        have := congrArg (fun l => l[0]?) hdrop
        simpa [List.getElem?_drop] using this
      have hnext : schema.drop (i1 + 1) = fs := by
        have := congrArg List.tail hdrop
        simpa [List.tail_drop] using this
      rcases Nat.eq_or_lt_of_le hle with heq | hlt
      · subst heq
        rw [hf] at hs
        have hsf : s = some f := (Option.some.inj hs).symm
        subst hsf
        exact unmarshalLoop_err comps f fs i1 _ c e hc herr
      · have hc1 : ∃ c1, comps[i1]? = some c1 :=
          ⟨comps[i1], List.getElem?_eq_getElem (by omega)⟩
        obtain ⟨c1, hc1⟩ := hc1
        have hok1 : ∀ (j : Nat) (g : field Val) (c2 : Bytes), i1 + 1 ≤ j → j < i →
            schema[j]? = some (some g) → comps[j]? = some c2 →
            (g.unmarshalValue c2 (appliedUpTo schema comps rv j)).2 = none :=
          fun j g c2 h1 h2 => hok j g c2 (by omega) h2
        cases s with
        | none =>
            rw [unmarshalLoop_skip comps fs i1 _ c1 hc1]
            have hstep : appliedUpTo schema comps rv (i1 + 1)
                = appliedUpTo schema comps rv i1 := by
              simp only [appliedUpTo, hs]
            rw [← hstep]
            exact ih (i1 + 1) hnext hlt hok1
        | some g =>
            rw [unmarshalLoop_ok comps g fs i1 _ c1 hc1 (hok i1 g c1 (le_refl _) hlt hs hc1)]
            have hstep : appliedUpTo schema comps rv (i1 + 1)
                = (g.unmarshalValue c1 (appliedUpTo schema comps rv i1)).1 := by
              simp only [appliedUpTo, hs, hc1]
            rw [← hstep]
            exact ih (i1 + 1) hnext hlt hok1

theorem exampleUnpack_unpacks : Unpacks exampleUnpack := by
  intro b comps h
  simp only [exampleUnpack, h, Option.getD_some]

/-- C9. Unmarshal order and failure: on a buffer that unpacks to the components c_0..c_(n-1),
UnmarshalCassandra applies unmarshalValue of each bound slot i below min(N, n) to c_i in
increasing order of i.  If slot i is the first whose unmarshalValue fails, the call returns
that error with the instance as the earlier slots and the failing call left it, nothing
later being applied; if none fails it returns no error and the instance after all of them. -/
theorem unmarshal_order_and_failure (unpack : Bytes → List Bytes) (hdec : Unpacks unpack)
    (tt : tupleType Val) (b : Bytes) (comps : List Bytes)
    (rv : Record Val) (hb : unpackTuple b = some comps) :
    (∀ (i : Nat) (f : field Val) (c : Bytes) (e : Error),
        tt.tupleOrderedFields[i]? = some (some f) → comps[i]? = some c →
        (∀ (j : Nat) (g : field Val) (c1 : Bytes), j < i →
          tt.tupleOrderedFields[j]? = some (some g) → comps[j]? = some c1 →
          (g.unmarshalValue c1 (appliedUpTo tt.tupleOrderedFields comps rv j)).2 = none) →
        (f.unmarshalValue c (appliedUpTo tt.tupleOrderedFields comps rv i)).2 = some e →
        UnmarshalCassandra unpack tt b rv =
          ((f.unmarshalValue c (appliedUpTo tt.tupleOrderedFields comps rv i)).1, some e))
    ∧ ((∀ (j : Nat) (g : field Val) (c1 : Bytes),
          tt.tupleOrderedFields[j]? = some (some g) → comps[j]? = some c1 →
          (g.unmarshalValue c1 (appliedUpTo tt.tupleOrderedFields comps rv j)).2 = none) →
        UnmarshalCassandra unpack tt b rv =
          (appliedUpTo tt.tupleOrderedFields comps rv
            (min tt.tupleOrderedFields.length comps.length), none)) := by
  constructor
  · intro i f c e hf hc hok herr
    simp only [UnmarshalCassandra, hdec b comps hb]
    exact unmarshalLoop_applied_err tt.tupleOrderedFields comps rv i f c e hf hc herr
        tt.tupleOrderedFields 0 rfl (Nat.zero_le _) (fun j g c1 _ hj => hok j g c1 hj)
  · intro hok
    simp only [UnmarshalCassandra, hdec b comps hb]
    have h := unmarshalLoop_applied_ok tt.tupleOrderedFields comps rv hok
      tt.tupleOrderedFields 0 rfl
    have hmin : appliedUpTo tt.tupleOrderedFields comps rv tt.tupleOrderedFields.length
        = appliedUpTo tt.tupleOrderedFields comps rv
            (min tt.tupleOrderedFields.length comps.length) := by
      apply appliedUpTo_stable _ _ _ _ _ (Nat.min_le_left _ _)
      rcases Nat.le_total tt.tupleOrderedFields.length comps.length with h1 | h1
      · exact Or.inl (by rw [Nat.min_eq_left h1])
      · exact Or.inr (by rw [Nat.min_eq_right h1])
    rw [← hmin]
    exact h

/-- Witness of C9: slots 0 = string and 1 = integer on the buffer len(3) "abc" ++ len(4)
00 00 00 07 give member 0 = "abc" and member 1 = 7 without error; with a third, string,
slot and a 3-byte second component the integer slot fails, its error is returned, member 0
holds "abc" and member 2 is as before. -/
theorem unmarshal_order_and_failure_witness :
    unpackTuple [0, 0, 0, 3, 97, 98, 99, 0, 0, 0, 4, 0, 0, 0, 7]
        = some [[97, 98, 99], [0, 0, 0, 7]]
    ∧ (∃ rv1 : Record GoVal,
        UnmarshalCassandra exampleUnpack
          (tupleType.mk [some (stringField 0), some (uint32Field 1)])
          [0, 0, 0, 3, 97, 98, 99, 0, 0, 0, 4, 0, 0, 0, 7] zeroRecord = (rv1, none)
        ∧ rv1 0 = GoVal.str [97, 98, 99] ∧ rv1 1 = GoVal.int 7)
    ∧ (∃ rv1 : Record GoVal,
        UnmarshalCassandra exampleUnpack
          (tupleType.mk [some (stringField 0), some (uint32Field 1), some (stringField 2)])
          [0, 0, 0, 3, 97, 98, 99, 0, 0, 0, 3, 0, 0, 7, 0, 0, 0, 1, 120] zeroRecord
          = (rv1, some (Error.fieldError "wrong length"))
        ∧ rv1 0 = GoVal.str [97, 98, 99] ∧ rv1 1 = GoVal.bool false
        ∧ rv1 2 = GoVal.bool false) := by
  refine ⟨by decide, ⟨_, (unmarshal_order_and_failure exampleUnpack exampleUnpack_unpacks
      (tupleType.mk [some (stringField 0), some (uint32Field 1)])
      [0, 0, 0, 3, 97, 98, 99, 0, 0, 0, 4, 0, 0, 0, 7] [[97, 98, 99], [0, 0, 0, 7]]
      zeroRecord (by decide)).2 ?_, by decide, by decide⟩,
    ⟨_, (unmarshal_order_and_failure exampleUnpack exampleUnpack_unpacks
      (tupleType.mk [some (stringField 0), some (uint32Field 1), some (stringField 2)])
      [0, 0, 0, 3, 97, 98, 99, 0, 0, 0, 3, 0, 0, 7, 0, 0, 0, 1, 120]
      [[97, 98, 99], [0, 0, 7], [120]] zeroRecord (by decide)).1 1 (uint32Field 1) [0, 0, 7]
        (Error.fieldError "wrong length") rfl rfl ?_ rfl, by decide, by decide, by decide⟩⟩
  · intro j g c1 hg hc
    match j, hg, hc with
    | 0, hg, hc =>
        simp only [List.getElem?_cons_zero, Option.some.injEq] at hg hc
        subst hg hc
        rfl
    | 1, hg, hc =>
        simp only [List.getElem?_cons_succ, List.getElem?_cons_zero, Option.some.injEq] at hg hc
        subst hg hc
        rfl
    | j + 2, hg, _ => simp at hg
  · intro j g c1 hj hg hc
    match j, hj, hg, hc with
    | 0, _, hg, hc =>
        simp only [List.getElem?_cons_zero, Option.some.injEq] at hg hc
        subst hg hc
        rfl
    | j + 1, hj, _, _ => omega

theorem unmarshalLoop_error_origin (comps : List Bytes) (fs : List (Option (field Val))) :
    ∀ (i : Nat) (rv rv1 : Record Val) (e : Error),
      unmarshalLoop comps fs i rv = (rv1, some e) →
      ∃ (k : Nat) (f : field Val) (c : Bytes) (t : Record Val),
        fs[k]? = some (some f) ∧ comps[i + k]? = some c ∧ f.unmarshalValue c t = (rv1, some e) := by
  induction fs with
  | nil =>
      intro i rv rv1 e h
      simp [unmarshalLoop] at h
  | cons s fs ih =>
      intro i rv rv1 e h
      cases hc : comps[i]? with
      | none =>
          rw [unmarshalLoop_break comps s fs i rv hc] at h
          simp at h
      | some c =>
          cases s with
          | none =>
              rw [unmarshalLoop_skip comps fs i rv c hc] at h
              obtain ⟨k, f, c1, t, h1, h2, h3⟩ := ih (i + 1) rv rv1 e h
              exact ⟨k + 1, f, c1, t, by simpa using h1, by rw [← h2]; congr 1; omega, h3⟩
          | some f =>
              cases hr : (f.unmarshalValue c rv).2 with
              | none =>
                  rw [unmarshalLoop_ok comps f fs i rv c hc hr] at h
                  obtain ⟨k, g, c1, t, h1, h2, h3⟩ := ih (i + 1) _ rv1 e h
                  exact ⟨k + 1, g, c1, t, by simpa using h1, by rw [← h2]; congr 1; omega, h3⟩
              | some e1 =>
                  rw [unmarshalLoop_err comps f fs i rv c e1 hc hr] at h
                  have h1 : (f.unmarshalValue c rv).1 = rv1 := (Prod.mk.inj h).1
                  have h2 : e1 = e := Option.some.inj (Prod.mk.inj h).2
                  refine ⟨0, f, c, rv, by simp, by simpa using hc, ?_⟩
                  rw [← h1, ← h2, ← hr]

theorem unmarshalLoop_congr (comps comps1 : List Bytes) (hlen : comps1.length = comps.length)
    (fs : List (Option (field Val))) :
    ∀ (i : Nat) (rv : Record Val),
      (∀ (k : Nat) (f : field Val), fs[k]? = some (some f) → comps1[i + k]? = comps[i + k]?) →
      unmarshalLoop comps1 fs i rv = unmarshalLoop comps fs i rv := by
  induction fs with
  | nil =>
      intro i rv _
      rfl
  | cons s fs ih =>
      intro i rv h
      have hnext : ∀ (k : Nat) (f : field Val), fs[k]? = some (some f) →
          comps1[i + 1 + k]? = comps[i + 1 + k]? := by
        intro k f hk
        have := h (k + 1) f (by simpa using hk)
        have e1 : i + (k + 1) = i + 1 + k := by omega
        rwa [e1] at this
      cases hc : comps[i]? with
      | none =>
          have hc1 : comps1[i]? = none := by
            rw [List.getElem?_eq_none_iff] at hc ⊢
            omega
          rw [unmarshalLoop_break comps s fs i rv hc, unmarshalLoop_break comps1 s fs i rv hc1]
      | some c =>
          cases s with
          | none =>
              have hc1 : ∃ c1, comps1[i]? = some c1 := by
                have hi : i < comps.length := by
                  by_contra hcon
                  rw [List.getElem?_eq_none (Nat.le_of_not_lt hcon)] at hc
                  exact absurd hc (by simp)
                exact ⟨comps1[i], List.getElem?_eq_getElem (by omega)⟩
              obtain ⟨c1, hc1⟩ := hc1
              rw [unmarshalLoop_skip comps fs i rv c hc, unmarshalLoop_skip comps1 fs i rv c1 hc1]
              exact ih (i + 1) rv hnext
          | some f =>
              have hc1 : comps1[i]? = some c := by
                have := h 0 f (by simp)
                simpa [hc] using this
              cases hr : (f.unmarshalValue c rv).2 with
              | none =>
                  rw [unmarshalLoop_ok comps f fs i rv c hc hr,
                    unmarshalLoop_ok comps1 f fs i rv c hc1 hr]
                  exact ih (i + 1) _ hnext
              | some e1 =>
                  rw [unmarshalLoop_err comps f fs i rv c e1 hc hr,
                    unmarshalLoop_err comps1 f fs i rv c e1 hc1 hr]

theorem unmarshalLoop_frame (comps : List Bytes) (member : Nat)
    (fs : List (Option (field Val))) :
    ∀ (i : Nat) (rv : Record Val),
      (∀ (k : Nat) (f : field Val), fs[k]? = some (some f) → i + k < comps.length →
        f.index ≠ member ∧
        ∀ (c : Bytes) (t : Record Val), (f.unmarshalValue c t).1 member = t member) →
      (unmarshalLoop comps fs i rv).1 member = rv member := by
  induction fs with
  | nil =>
      intro i rv _
      rfl
  | cons s fs ih =>
      intro i rv h
      have hnext : ∀ (k : Nat) (f : field Val), fs[k]? = some (some f) →
          i + 1 + k < comps.length →
          f.index ≠ member ∧
          ∀ (c : Bytes) (t : Record Val), (f.unmarshalValue c t).1 member = t member := by
        intro k f hk hlt
        exact h (k + 1) f (by simpa using hk) (by omega)
      cases hc : comps[i]? with
      | none => rw [unmarshalLoop_break comps s fs i rv hc]
      | some c =>
          have hi : i < comps.length := by
            by_contra hcon
            rw [List.getElem?_eq_none (Nat.le_of_not_lt hcon)] at hc
            exact absurd hc (by simp)
          cases s with
          | none =>
              rw [unmarshalLoop_skip comps fs i rv c hc]
              exact ih (i + 1) rv hnext
          | some f =>
              have hf := (h 0 f (by simp) (by omega)).2 c rv
              cases hr : (f.unmarshalValue c rv).2 with
              | none =>
                  rw [unmarshalLoop_ok comps f fs i rv c hc hr, ih (i + 1) _ hnext]
                  exact hf
              | some e1 =>
                  rw [unmarshalLoop_err comps f fs i rv c e1 hc hr]
                  exact hf

theorem unmarshalLoop_append (comps : List Bytes) (fs1 fs2 : List (Option (field Val))) :
    ∀ (i : Nat) (rv : Record Val), comps.length ≤ i + fs1.length →
      unmarshalLoop comps (fs1 ++ fs2) i rv = unmarshalLoop comps fs1 i rv := by
  induction fs1 with
  | nil =>
      intro i rv h
      have hc : comps[i]? = none := List.getElem?_eq_none (by simpa using h)
      cases fs2 with
      | nil => rfl
      | cons s fs => simp only [List.nil_append, unmarshalLoop, hc]
  | cons s fs ih =>
      intro i rv h
      have hnext : comps.length ≤ i + 1 + fs.length := by
        simp only [List.length_cons] at h
        omega
      cases hc : comps[i]? with
      | none =>
          rw [List.cons_append, unmarshalLoop_break comps s _ i rv hc,
            unmarshalLoop_break comps s _ i rv hc]
      | some c =>
          cases s with
          | none =>
              rw [List.cons_append, unmarshalLoop_skip comps _ i rv c hc,
                unmarshalLoop_skip comps _ i rv c hc]
              exact ih (i + 1) rv hnext
          | some f =>
              cases hr : (f.unmarshalValue c rv).2 with
              | none =>
                  rw [List.cons_append, unmarshalLoop_ok comps f _ i rv c hc hr,
                    unmarshalLoop_ok comps f _ i rv c hc hr]
                  exact ih (i + 1) _ hnext
              | some e1 =>
                  rw [List.cons_append, unmarshalLoop_err comps f _ i rv c e1 hc hr,
                    unmarshalLoop_err comps f _ i rv c e1 hc hr]

/-- C7. Skip-on-read: on a well-formed buffer UnmarshalCassandra returns; an error it
returns is the error returned by unmarshalValue of a bound slot on that slot's component;
the bytes of the components at empty slots have no influence on the result, since they
are applied to nothing; and when the fields write their own member only, every member
that is not bound to a visited slot is as it was before the call. -/
theorem unmarshal_skip_on_read (unpack : Bytes → List Bytes) (hdec : Unpacks unpack)
    (tt : tupleType Val) (b : Bytes) (comps : List Bytes)
    (rv : Record Val) (hb : unpackTuple b = some comps) :
    ∃ (rv1 : Record Val) (err : Option Error),
      UnmarshalCassandra unpack tt b rv = (rv1, err)
      ∧ (∀ e, err = some e →
          ∃ (i : Nat) (f : field Val) (c : Bytes) (t : Record Val),
            tt.tupleOrderedFields[i]? = some (some f) ∧ comps[i]? = some c
              ∧ f.unmarshalValue c t = (rv1, some e))
      ∧ (∀ (b1 : Bytes) (comps1 : List Bytes), unpackTuple b1 = some comps1 →
          comps1.length = comps.length →
          (∀ (i : Nat) (f : field Val), tt.tupleOrderedFields[i]? = some (some f) →
            comps1[i]? = comps[i]?) →
          UnmarshalCassandra unpack tt b1 rv = (rv1, err))
      ∧ ((∀ (i : Nat) (f : field Val), tt.tupleOrderedFields[i]? = some (some f) →
            ∀ (c : Bytes) (t : Record Val) (j : Nat), j ≠ f.index →
              (f.unmarshalValue c t).1 j = t j) →
          ∀ member : Nat,
            (∀ (i : Nat) (f : field Val), tt.tupleOrderedFields[i]? = some (some f) →
              i < comps.length → f.index ≠ member) →
            rv1 member = rv member) := by
  refine ⟨(unmarshalLoop comps tt.tupleOrderedFields 0 rv).1,
    (unmarshalLoop comps tt.tupleOrderedFields 0 rv).2, ?_, ?_, ?_, ?_⟩
  · simp only [UnmarshalCassandra, hdec b comps hb]
  · intro e he
    obtain ⟨k, f, c, t, h1, h2, h3⟩ := unmarshalLoop_error_origin comps tt.tupleOrderedFields 0 rv
      (unmarshalLoop comps tt.tupleOrderedFields 0 rv).1 e (by rw [← he])
    exact ⟨k, f, c, t, h1, by simpa using h2, h3⟩
  · intro b1 comps1 hb1 hlen h
    simp only [UnmarshalCassandra, hdec b1 comps1 hb1]
    rw [unmarshalLoop_congr comps comps1 hlen tt.tupleOrderedFields 0 rv
      (fun k f hk => by simpa using h k f hk)]
  · intro hown member hm
    apply unmarshalLoop_frame comps member tt.tupleOrderedFields 0 rv
    intro k f hk hlt
    have hne := hm k f hk (by simpa using hlt)
    exact ⟨hne, fun c t => hown k f hk c t member (Ne.symm hne)⟩

/-- Witness of C7: a string slot, an empty slot and an integer slot on a buffer of three
components, the second of which is arbitrary bytes. -/
theorem unmarshal_skip_on_read_witness :
    unpackTuple [0, 0, 0, 1, 97, 0, 0, 0, 2, 255, 254, 0, 0, 0, 4, 0, 0, 0, 7]
        = some [[97], [255, 254], [0, 0, 0, 7]]
    ∧ ∃ (rv1 : Record GoVal) (err : Option Error),
      UnmarshalCassandra exampleUnpack
          (tupleType.mk [some (stringField 0), none, some (uint32Field 2)])
          [0, 0, 0, 1, 97, 0, 0, 0, 2, 255, 254, 0, 0, 0, 4, 0, 0, 0, 7] zeroRecord
        = (rv1, err)
      ∧ (∀ e, err = some e →
          ∃ (i : Nat) (f : field GoVal) (c : Bytes) (t : Record GoVal),
            (tupleType.mk [some (stringField 0), none, some (uint32Field 2)]).tupleOrderedFields[i]?
                = some (some f)
              ∧ [[97], [255, 254], [0, 0, 0, 7]][i]? = some c
              ∧ f.unmarshalValue c t = (rv1, some e))
      ∧ (∀ (b1 : Bytes) (comps1 : List Bytes), unpackTuple b1 = some comps1 →
          comps1.length = [[97], [255, 254], [(0 : Byte), 0, 0, 7]].length →
          (∀ (i : Nat) (f : field GoVal),
            (tupleType.mk [some (stringField 0), none, some (uint32Field 2)]).tupleOrderedFields[i]?
                = some (some f) →
            comps1[i]? = [[97], [255, 254], [0, 0, 0, 7]][i]?) →
          UnmarshalCassandra exampleUnpack
            (tupleType.mk [some (stringField 0), none, some (uint32Field 2)])
            b1 zeroRecord = (rv1, err))
      ∧ ((∀ (i : Nat) (f : field GoVal),
            (tupleType.mk [some (stringField 0), none, some (uint32Field 2)]).tupleOrderedFields[i]?
                = some (some f) →
            ∀ (c : Bytes) (t : Record GoVal) (j : Nat), j ≠ f.index →
              (f.unmarshalValue c t).1 j = t j) →
          ∀ member : Nat,
            (∀ (i : Nat) (f : field GoVal),
              (tupleType.mk [some (stringField 0), none, some (uint32Field 2)]).tupleOrderedFields[i]?
                  = some (some f) →
              i < [[97], [255, 254], [(0 : Byte), 0, 0, 7]].length → f.index ≠ member) →
            rv1 member = zeroRecord member) :=
  ⟨by decide,
    unmarshal_skip_on_read exampleUnpack exampleUnpack_unpacks _ _ _ zeroRecord (by decide)⟩

/-- C6. Forward compatibility: a buffer holding exactly k components, unmarshalled against
a schema of k+m slots whose first k slots accept those components, returns no error and
gives the instance that the first k slots alone give, the slots k..k+m-1 being never
applied; so, the fields writing their own member only, every field bound at a position
from k on whose member no earlier slot binds keeps the value it had before the call. -/
theorem unmarshal_forward_compatible (unpack : Bytes → List Bytes) (hdec : Unpacks unpack)
    (k m : Nat) (tt : tupleType Val) (b : Bytes)
    (comps : List Bytes) (rv rv1 : Record Val)
    (hlen : tt.tupleOrderedFields.length = k + m)
    (hb : unpackTuple b = some comps) (hk : comps.length = k)
    (hacc : UnmarshalCassandra unpack (tupleType.mk (tt.tupleOrderedFields.take k)) b rv
      = (rv1, none)) :
    UnmarshalCassandra unpack tt b rv = (rv1, none)
    ∧ ((∀ (i : Nat) (f : field Val), i < k → tt.tupleOrderedFields[i]? = some (some f) →
          ∀ (c : Bytes) (t : Record Val) (j : Nat), j ≠ f.index →
            (f.unmarshalValue c t).1 j = t j) →
        ∀ (p : Nat) (g : field Val), k ≤ p → tt.tupleOrderedFields[p]? = some (some g) →
          (∀ (i : Nat) (f : field Val), i < k → tt.tupleOrderedFields[i]? = some (some f) →
            f.index ≠ g.index) →
          rv1 g.index = rv g.index) := by
  have hsplit : tt.tupleOrderedFields
      = tt.tupleOrderedFields.take k ++ tt.tupleOrderedFields.drop k :=
    (List.take_append_drop k _).symm
  have htake : (tt.tupleOrderedFields.take k).length = k := by
    rw [List.length_take, hlen]
    omega
  have hloop : unmarshalLoop comps tt.tupleOrderedFields 0 rv
      = unmarshalLoop comps (tt.tupleOrderedFields.take k) 0 rv := by
    conv_lhs => rw [hsplit]
    exact unmarshalLoop_append comps _ _ 0 rv (by omega)
  simp only [UnmarshalCassandra, hdec b comps hb] at hacc
  constructor
  · simp only [UnmarshalCassandra, hdec b comps hb, hloop, hacc]
  · intro hown p g _ hg hdist
    have h1 : rv1 = (unmarshalLoop comps (tt.tupleOrderedFields.take k) 0 rv).1 := by
      rw [hacc]
    rw [h1]
    apply unmarshalLoop_frame comps g.index (tt.tupleOrderedFields.take k) 0 rv
    intro i f hf hi
    have hik : i < k := by omega
    have hf1 : tt.tupleOrderedFields[i]? = some (some f) := by
      rw [List.getElem?_take] at hf
      simpa [hik] using hf
    have hne := hdist i f hik hf1
    exact ⟨hne, fun c t => hown i f hik hf1 c t g.index (Ne.symm hne)⟩

/-- Witness of C6: k = 1 and m = 1; the buffer is the one MarshalCassandra gives under the
schema with the string slot alone, and member 1 holds 42 before and after the call. -/
theorem unmarshal_forward_compatible_witness :
    MarshalCassandra (tupleType.mk [some (stringField 0)]) (fun _ => GoVal.str [97, 98, 99])
        = (some [0, 0, 0, 3, 97, 98, 99], none)
    ∧ (tupleType.mk [some (stringField 0), some (uint32Field 1)]).tupleOrderedFields.length = 1 + 1
    ∧ unpackTuple [0, 0, 0, 3, 97, 98, 99] = some [[97, 98, 99]]
    ∧ UnmarshalCassandra exampleUnpack
        (tupleType.mk [some (stringField 0), some (uint32Field 1)])
        [0, 0, 0, 3, 97, 98, 99] (fun _ => GoVal.int 42)
        = (Function.update (fun _ => GoVal.int 42) 0 (GoVal.str [97, 98, 99]), none)
    ∧ Function.update (fun _ => GoVal.int 42) 0 (GoVal.str [97, 98, 99]) (uint32Field 1).index
        = GoVal.int 42 :=
  have h := unmarshal_forward_compatible exampleUnpack exampleUnpack_unpacks 1 1
    (tupleType.mk [some (stringField 0), some (uint32Field 1)]) [0, 0, 0, 3, 97, 98, 99]
    [[97, 98, 99]] (fun _ => GoVal.int 42)
    (Function.update (fun _ => GoVal.int 42) 0 (GoVal.str [97, 98, 99])) rfl (by decide) rfl rfl
  ⟨by decide, rfl, by decide, h.1,
    h.2
      (fun i f hi hf c t j hj => by
        have hi0 : i = 0 := by omega
        subst hi0
        simp only [List.getElem?_cons_zero, Option.some.injEq] at hf
        subst hf
        exact Function.update_noteq hj _ _)
      1 (uint32Field 1) (le_refl 1) rfl
      (fun i f hi hf => by
        have hi0 : i = 0 := by omega
        subst hi0
        simp only [List.getElem?_cons_zero, Option.some.injEq] at hf
        subst hf
        decide)⟩

theorem marshalLoop_success (rv : Record Val) (fs : List (Option (field Val))) :
    ∀ (tuple b : Bytes), marshalLoop rv fs tuple = (some b, none) →
      ∃ payloads : List Bytes,
        List.Forall₂ (fun s p => ∃ f, s = some f ∧ f.marshalValue rv = Except.ok p) fs payloads
        ∧ b = tuple ++ (payloads.map (fun p => be32 p.length ++ p)).flatten := by
  induction fs with
  | nil =>
      intro tuple b h
      simp only [marshalLoop, Prod.mk.injEq, Option.some.injEq, and_true] at h
      exact ⟨[], List.Forall₂.nil, by simp [h]⟩
  | cons s fs ih =>
      intro tuple b h
      cases s with
      | none => simp [marshalLoop] at h
      | some f =>
          cases hm : f.marshalValue rv with
          | error err => simp [marshalLoop, hm] at h
          | ok result =>
              simp only [marshalLoop, hm] at h
              obtain ⟨ps, hps, hb⟩ := ih _ b h
              exact ⟨result :: ps, List.Forall₂.cons ⟨f, rfl, hm⟩ hps,
                by simp [hb, packTuple]⟩

theorem forall₂_getElem? {α β : Type} (R : α → β → Prop) (l1 : List α) (l2 : List β)
    (h : List.Forall₂ R l1 l2) :
    ∀ (i : Nat) (a : α) (b : β), l1[i]? = some a → l2[i]? = some b → R a b := by
  induction h with
  | nil =>
      intro i a b h1 _
      simp at h1
  | cons hab _ ih =>
      intro i a b h1 h2
      cases i with
      | zero =>
          simp only [List.getElem?_cons_zero, Option.some.injEq] at h1 h2
          subst h1 h2
          exact hab
      | succ i =>
          simp only [List.getElem?_cons_succ] at h1 h2
          exact ih i a b h1 h2

/-- The instance after the first `i` slots agrees with `v` on the member of every bound
slot below `i`, when each field undoes its own marshalValue and writes its member only. -/
theorem appliedUpTo_agrees (schema : List (Option (field Val))) (comps : List Bytes)
    (v t : Record Val)
    (hpay : ∀ (i : Nat) (f : field Val), schema[i]? = some (some f) →
      ∃ c, comps[i]? = some c ∧ f.marshalValue v = Except.ok c)
    (hundo : ∀ (i : Nat) (f : field Val), schema[i]? = some (some f) →
      ∀ (p : Bytes) (t1 : Record Val), f.marshalValue v = Except.ok p →
        (f.unmarshalValue p t1).1 f.index = v f.index
        ∧ ∀ j, j ≠ f.index → (f.unmarshalValue p t1).1 j = t1 j) :
    ∀ (i j : Nat) (g : field Val), j < i → schema[j]? = some (some g) →
      appliedUpTo schema comps t i g.index = v g.index := by
  intro i
  induction i with
  | zero =>
      intro j g hj _
      omega
  | succ i ih =>
      intro j g hj hg
      cases hs : schema[i]? with
      | none =>
          have hstep : appliedUpTo schema comps t (i + 1) = appliedUpTo schema comps t i := by
            simp only [appliedUpTo, hs]
          rw [hstep]
          have hji : j < i := by
            rcases Nat.eq_or_lt_of_le (Nat.lt_succ_iff.mp hj) with h | h
            · subst h
              rw [hs] at hg
              exact absurd hg (by simp)
            · exact h
          exact ih j g hji hg
      | some s =>
          cases s with
          | none =>
              have hstep : appliedUpTo schema comps t (i + 1) = appliedUpTo schema comps t i := by
                simp only [appliedUpTo, hs]
              rw [hstep]
              have hji : j < i := by
                rcases Nat.eq_or_lt_of_le (Nat.lt_succ_iff.mp hj) with h | h
                · subst h
                  rw [hs] at hg
                  exact absurd hg (by simp)
                · exact h
              exact ih j g hji hg
          | some f =>
              obtain ⟨c, hc, hm⟩ := hpay i f hs
              have hstep : appliedUpTo schema comps t (i + 1)
                  = (f.unmarshalValue c (appliedUpTo schema comps t i)).1 := by
                simp only [appliedUpTo, hs, hc]
              rw [hstep]
              have hu := hundo i f hs c (appliedUpTo schema comps t i) hm
              by_cases hidx : g.index = f.index
              · rw [hidx]
                exact hu.1
              · rw [hu.2 g.index hidx]
                rcases Nat.eq_or_lt_of_le (Nat.lt_succ_iff.mp hj) with h | h
                · subst h
                  rw [hs] at hg
                  have : f = g := Option.some.inj (Option.some.inj hg)
                  exact absurd (congrArg field.index this).symm hidx
                · exact ih j g h hg

/-- The bytes MarshalCassandra returns unpack to the payloads of the slots, one component
per slot, when every payload is shorter than 2^32 bytes. -/
theorem marshal_then_unpack (tt : tupleType Val) (v : Record Val) (b : Bytes)
    (hm : MarshalCassandra tt v = (some b, none))
    (hshort : ∀ (f : field Val) (p : Bytes), some f ∈ tt.tupleOrderedFields →
      f.marshalValue v = Except.ok p → p.length < 2 ^ 32) :
    ∃ payloads : List Bytes,
      unpackTuple b = some payloads
      ∧ payloads.length = tt.tupleOrderedFields.length
      ∧ ∀ (i : Nat) (f : field Val), tt.tupleOrderedFields[i]? = some (some f) →
          ∃ c, payloads[i]? = some c ∧ f.marshalValue v = Except.ok c := by
  obtain ⟨payloads, hps, hb⟩ := marshalLoop_success v tt.tupleOrderedFields [] b hm
  rw [List.nil_append] at hb
  have hidx := forall₂_getElem? _ _ _ hps
  have hlenEq : tt.tupleOrderedFields.length = payloads.length := hps.length_eq
  have hshortp : ∀ p ∈ payloads, p.length < 2 ^ 32 := by
    intro p hp
    obtain ⟨i, hi, hpi⟩ := List.getElem_of_mem hp
    have hi1 : i < tt.tupleOrderedFields.length := by omega
    obtain ⟨f, hf, hfm⟩ := hidx i tt.tupleOrderedFields[i] p
      (List.getElem?_eq_getElem hi1) (by rw [← hpi]; exact List.getElem?_eq_getElem hi)
    exact hshort f p (by rw [← hf]; exact List.getElem_mem hi1) hfm
  refine ⟨payloads, ?_, hlenEq.symm, ?_⟩
  · rw [hb]
    exact unpackTuple_frames payloads hshortp
  · intro i f hf
    have hi : i < payloads.length := by
      by_contra hcon
      rw [List.getElem?_eq_none (by omega)] at hf
      exact absurd hf (by simp)
    obtain ⟨g, hg, hgm⟩ := hidx i (some f) payloads[i] hf (List.getElem?_eq_getElem hi)
    have : f = g := Option.some.inj hg
    subst this
    exact ⟨payloads[i], List.getElem?_eq_getElem hi, hgm⟩

/-- C1, as amended. Round trip: when MarshalCassandra returns bytes for the value v (every
slot is then bound), every payload is shorter than 2^32 bytes, and each bound field's
unmarshalValue undoes its marshalValue and writes its own member only, UnmarshalCassandra
on those bytes succeeds on any target, the zero-valued one among them, and leaves it equal
to v in every bound field. -/
theorem marshal_unmarshal_roundtrip (unpack : Bytes → List Bytes) (hdec : Unpacks unpack)
    (tt : tupleType Val) (v t : Record Val) (b : Bytes)
    (hm : MarshalCassandra tt v = (some b, none))
    (hshort : ∀ (f : field Val) (p : Bytes), some f ∈ tt.tupleOrderedFields →
      f.marshalValue v = Except.ok p → p.length < 2 ^ 32)
    (hundo : ∀ (f : field Val), some f ∈ tt.tupleOrderedFields →
      ∀ (p : Bytes) (t1 : Record Val), f.marshalValue v = Except.ok p →
        (f.unmarshalValue p t1).2 = none
        ∧ (f.unmarshalValue p t1).1 f.index = v f.index
        ∧ ∀ j, j ≠ f.index → (f.unmarshalValue p t1).1 j = t1 j) :
    (∀ s ∈ tt.tupleOrderedFields, s ≠ none)
    ∧ ∃ t1 : Record Val, UnmarshalCassandra unpack tt b t = (t1, none)
      ∧ ∀ (f : field Val), some f ∈ tt.tupleOrderedFields → t1 f.index = v f.index := by
  obtain ⟨payloads, hunpack, _, hpay⟩ := marshal_then_unpack tt v b hm hshort
  have hmem : ∀ (i : Nat) (f : field Val), tt.tupleOrderedFields[i]? = some (some f) →
      some f ∈ tt.tupleOrderedFields := fun i f h => List.getElem?_mem h
  refine ⟨?_, appliedUpTo tt.tupleOrderedFields payloads t tt.tupleOrderedFields.length, ?_, ?_⟩
  · intro s hs hnone
    subst hnone
    obtain ⟨e, he⟩ := marshalLoop_skipped v tt.tupleOrderedFields hs []
    rw [MarshalCassandra, he] at hm
    exact absurd hm (by simp)
  · simp only [UnmarshalCassandra, hdec b payloads hunpack]
    apply unmarshalLoop_applied_ok tt.tupleOrderedFields payloads t _ tt.tupleOrderedFields 0 rfl
    intro j g c hg hc
    obtain ⟨c1, hc1, hgm⟩ := hpay j g hg
    rw [hc] at hc1
    have : c = c1 := Option.some.inj hc1
    subst this
    exact (hundo g (hmem j g hg) c _ hgm).1
  · intro f hf
    obtain ⟨i, hi, hfi⟩ := List.getElem_of_mem hf
    apply appliedUpTo_agrees tt.tupleOrderedFields payloads v t hpay _
      tt.tupleOrderedFields.length i f hi (by rw [← hfi]; exact List.getElem?_eq_getElem hi)
    intro k g hg p t1 hgm
    exact (hundo g (hmem k g hg) p t1 hgm).2

/-- Witness of C1 as amended: the string slot and the integer slot, on the value with
members "abc" and 7. -/
theorem marshal_unmarshal_roundtrip_witness :
    MarshalCassandra (tupleType.mk [some (stringField 0), some (uint32Field 1)])
        (fun i => if i = 0 then GoVal.str [97, 98, 99] else GoVal.int 7)
      = (some [0, 0, 0, 3, 97, 98, 99, 0, 0, 0, 4, 0, 0, 0, 7], none)
    ∧ (∀ s ∈ (tupleType.mk [some (stringField 0), some (uint32Field 1)]).tupleOrderedFields,
        s ≠ none)
    ∧ ∃ t1 : Record GoVal,
        UnmarshalCassandra exampleUnpack
          (tupleType.mk [some (stringField 0), some (uint32Field 1)])
          [0, 0, 0, 3, 97, 98, 99, 0, 0, 0, 4, 0, 0, 0, 7] zeroRecord = (t1, none)
        ∧ ∀ (f : field GoVal),
            some f ∈ (tupleType.mk [some (stringField 0), some (uint32Field 1)]).tupleOrderedFields →
            t1 f.index = (fun i => if i = 0 then GoVal.str [97, 98, 99] else GoVal.int 7) f.index :=
  ⟨by decide,
    marshal_unmarshal_roundtrip exampleUnpack exampleUnpack_unpacks
      (tupleType.mk [some (stringField 0), some (uint32Field 1)])
      (fun i => if i = 0 then GoVal.str [97, 98, 99] else GoVal.int 7) zeroRecord
      [0, 0, 0, 3, 97, 98, 99, 0, 0, 0, 4, 0, 0, 0, 7] (by decide)
      (by
        intro f p hf hp
        simp only [List.mem_cons, List.mem_singleton, Option.some.injEq, List.not_mem_nil,
          or_false] at hf
        rcases hf with rfl | rfl
        · have : p = [97, 98, 99] := (Except.ok.inj hp).symm
          subst this
          decide
        · have : p = [0, 0, 0, 7] := (Except.ok.inj hp).symm
          subst this
          decide)
      (by
        intro f hf p t1 hp
        simp only [List.mem_cons, List.mem_singleton, Option.some.injEq, List.not_mem_nil,
          or_false] at hf
        rcases hf with rfl | rfl
        · have : p = [97, 98, 99] := (Except.ok.inj hp).symm
          subst this
          exact ⟨rfl, by simp [stringField], fun j hj => Function.update_noteq hj _ _⟩
        · have : p = [0, 0, 0, 7] := (Except.ok.inj hp).symm
          subst this
          exact ⟨rfl, by simp [uint32Field, beU32]; rfl, fun j hj => Function.update_noteq hj _ _⟩)⟩

theorem replicate_four_mul (m : Nat) :
    List.replicate (4 * (m + 1)) (0 : Byte) = 0 :: 0 :: 0 :: 0 :: List.replicate (4 * m) 0 := by
  have : 4 * (m + 1) = 4 * m + 1 + 1 + 1 + 1 := by omega
  rw [this]
  rfl

theorem unpackAux_zeros (m : Nat) : ∀ fuel : Nat, m ≤ fuel →
    unpackAux fuel (List.replicate (4 * m) (0 : Byte)) = some (List.replicate m []) := by
  induction m with
  | zero =>
      intro fuel _
      cases fuel <;> rfl
  | succ m ih =>
      intro fuel hf
      obtain ⟨fuel1, rfl⟩ : ∃ k, fuel = k + 1 := ⟨fuel - 1, by omega⟩
      rw [replicate_four_mul]
      have hz : beU32 0 0 0 0 = 0 := rfl
      simp only [unpackAux, hz, Nat.not_lt_zero, if_false, List.drop_zero, List.take_zero]
      rw [ih fuel1 (by omega)]
      rfl

/-- A run of `n` zero bytes, `n` a multiple of 2^32 and of 4, through MarshalCassandra and
UnmarshalCassandra of the schema with the run slot alone: the member comes back as 0. -/
theorem run_roundtrip (n m : Nat) (h32 : n % 2 ^ 32 = 0) (h4 : n = 4 * m) (t : Record Nat) :
    ∃ b, MarshalCassandra (tupleType.mk [some (runField 0)]) (fun _ => n) = (some b, none)
      ∧ ∀ unpack : Bytes → List Bytes, Unpacks unpack →
          UnmarshalCassandra unpack (tupleType.mk [some (runField 0)]) b t
            = (Function.update t 0 0, none) := by
  subst h4
  refine ⟨List.replicate (4 * (m + 1)) 0, ?_, ?_⟩
  · simp only [MarshalCassandra, marshalLoop, runField, packTuple, List.length_replicate,
      be32_of_multiple (4 * m) h32, List.nil_append, replicate_four_mul]
    rfl
  · intro unpack hdec
    have hu : unpackTuple (List.replicate (4 * (m + 1)) (0 : Byte))
        = some (List.replicate (m + 1) []) := by
      unfold unpackTuple
      exact unpackAux_zeros (m + 1) _ (by simp only [List.length_replicate]; omega)
    simp only [UnmarshalCassandra, hdec _ _ hu, List.replicate_succ]
    rw [unmarshalLoop_ok _ (runField 0) [] 0 t [] (by simp) rfl]
    rfl

/-- Counterexample to C1 as stated: the schema with one bound slot whose field undoes its
own marshalValue and writes its member only, and a value whose payload is 2^32 bytes long.
MarshalCassandra returns bytes, which are a well-formed buffer; UnmarshalCassandra on them
succeeds, with the example unpack as with every unpack that follows spec 4.4 on well-formed
buffers, and the bound member of the target is 0 and not the 2^32 of the value. -/
theorem roundtrip_fails_on_long_payload :
    (∀ s ∈ (tupleType.mk [some (runField 0)]).tupleOrderedFields, s ≠ none)
    ∧ (∀ (f : field Nat), some f ∈ (tupleType.mk [some (runField 0)]).tupleOrderedFields →
        ∀ (v t1 : Record Nat) (p : Bytes), f.marshalValue v = Except.ok p →
          (f.unmarshalValue p t1).2 = none
          ∧ (f.unmarshalValue p t1).1 f.index = v f.index
          ∧ ∀ j, j ≠ f.index → (f.unmarshalValue p t1).1 j = t1 j)
    ∧ ∃ (b : Bytes) (t1 : Record Nat),
        MarshalCassandra (tupleType.mk [some (runField 0)]) (fun _ => 2 ^ 32) = (some b, none)
        ∧ UnmarshalCassandra exampleUnpack (tupleType.mk [some (runField 0)]) b (fun _ => 0)
            = (t1, none)
        ∧ (∀ unpack : Bytes → List Bytes, Unpacks unpack →
            UnmarshalCassandra unpack (tupleType.mk [some (runField 0)]) b (fun _ => 0)
              = (t1, none))
        ∧ t1 (runField 0).index ≠ (fun _ => 2 ^ 32) (runField 0).index := by
  refine ⟨by simp, ?_, ?_⟩
  · intro f hf v t1 p hp
    simp only [List.mem_singleton, Option.some.injEq] at hf
    subst hf
    have hpe : p = List.replicate (v 0) 0 := (Except.ok.inj hp).symm
    subst hpe
    refine ⟨rfl, ?_, fun j hj => Function.update_noteq hj _ _⟩
    simp [runField]
  · obtain ⟨b, hb1, hb2⟩ := run_roundtrip (2 ^ 32) (2 ^ 30) (Nat.mod_self _) (by norm_num)
      (fun _ => 0)
    refine ⟨b, _, hb1, hb2 exampleUnpack exampleUnpack_unpacks, hb2, ?_⟩
    show Function.update (fun _ => 0) 0 0 0 ≠ 2 ^ 32
    simp

end Unmarshal

section Schema

variable {Val : Type}

theorem atoi_empty : Atoi "" = none := rfl

theorem extendSlots_length (slots : List (Option (field Val))) (q : Int) (hq : 0 ≤ q) :
    (extendSlots slots q).length = max slots.length (q.toNat + 1) := by
  unfold extendSlots
  split
  · rw [List.length_append, List.length_replicate]
    omega
  · omega

theorem extendSlots_neg (slots : List (Option (field Val))) (q : Int) (hq : q < 0) :
    extendSlots slots q = slots := by
  unfold extendSlots
  rw [if_neg (by omega)]

theorem extendSlots_getElem?_old (slots : List (Option (field Val))) (q : Int) (k : Nat)
    (x : Option (field Val)) (h : slots[k]? = some x) : (extendSlots slots q)[k]? = some x := by
  unfold extendSlots
  split
  · have hk : k < slots.length := by
      by_contra hcon
      rw [List.getElem?_eq_none (Nat.le_of_not_lt hcon)] at h
      exact absurd h (by simp)
    rw [List.getElem?_append_left hk]
    exact h
  · exact h

theorem extendSlots_getElem?_bound (slots : List (Option (field Val))) (q : Int) (k : Nat)
    (x : field Val) (h : (extendSlots slots q)[k]? = some (some x)) : slots[k]? = some (some x) := by
  unfold extendSlots at h
  split at h
  · by_cases hk : k < slots.length
    · rwa [List.getElem?_append_left hk] at h
    · rw [List.getElem?_append_right (Nat.le_of_not_lt hk)] at h
      have := List.getElem?_mem h
      simp at this
  · exact h

theorem goIndex_extendSlots (slots : List (Option (field Val))) (q : Int) (hq : 0 ≤ q) :
    goIndex (extendSlots slots q) q = some ((extendSlots slots q)[q.toNat]?.getD none)
    ∧ ∃ s, (extendSlots slots q)[q.toNat]? = some s := by
  have hlt : q.toNat < (extendSlots slots q).length := by
    rw [extendSlots_length slots q hq]
    omega
  have hs : (extendSlots slots q)[q.toNat]? = some (extendSlots slots q)[q.toNat] :=
    List.getElem?_eq_getElem hlt
  refine ⟨?_, _, hs⟩
  unfold goIndex
  rw [if_neg (by omega), hs]
  rfl

theorem atoi_bind_nonneg (o : Option Nat) (q : Int)
    (h : (o.bind fun n => if n < 2 ^ 63 then some (n : Int) else none) = some q) :
    -(2 ^ 63 : Int) ≤ q ∧ q < 2 ^ 63 := by
  cases o with
  | none => exact absurd h (by simp)
  | some n =>
      have h1 : n < 2 ^ 63 ∧ (n : Int) = q := by simpa using h
      omega

theorem atoi_bind_neg (o : Option Nat) (q : Int)
    (h : (o.bind fun n => if n ≤ 2 ^ 63 then some (-(n : Int)) else none) = some q) :
    -(2 ^ 63 : Int) ≤ q ∧ q < 2 ^ 63 := by
  cases o with
  | none => exact absurd h (by simp)
  | some n =>
      have h1 : n ≤ 2 ^ 63 ∧ -(n : Int) = q := by simpa using h
      omega

/-- An integer that `Atoi` gives is within the range of a 64-bit `int`. -/
theorem atoi_range (s : String) (q : Int) (h : Atoi s = some q) :
    -(2 ^ 63 : Int) ≤ q ∧ q < 2 ^ 63 := by
  unfold Atoi at h
  split at h
  · exact absurd h (by simp)
  · split at h
    · split at h
      · exact absurd h (by simp)
      · exact atoi_bind_neg _ q h
    · split at h
      · split at h
        · exact absurd h (by simp)
        · exact atoi_bind_nonneg _ q h
      · exact atoi_bind_nonneg _ q h

theorem wrapInt64_count (len : Nat) (q : Int) (hge : q ≥ (len : Int)) (hlt : q + 1 < 2 ^ 63) :
    wrapInt64 (wrapInt64 (1 + q) - (len : Int)) = 1 + q - (len : Int) := by
  unfold wrapInt64
  omega

/-- The extension goes through when the array of `q + 1` slots can be allocated. -/
theorem growSlots_ok (maxLen : Nat) (slots : List (Option (field Val))) (q : Int)
    (hq : 0 ≤ q) (ha : Allocatable maxLen (q.toNat + 1)) :
    growSlots maxLen slots q = some (extendSlots slots q) := by
  unfold growSlots extendSlots
  by_cases hge : q ≥ (slots.length : Int)
  · rw [if_pos hge, if_pos hge, wrapInt64_count slots.length q hge (by have := ha.2; omega)]
    have hsum : slots.length + (1 + q - (slots.length : Int)).toNat = q.toNat + 1 := by omega
    rw [hsum, if_neg]
    rintro (h | h)
    · omega
    · exact h ha
  · rw [if_neg hge, if_neg hge]

theorem growSlots_below (maxLen : Nat) (slots : List (Option (field Val))) (q : Int)
    (hq : q < (slots.length : Int)) : growSlots maxLen slots q = some slots := by
  unfold growSlots
  rw [if_neg (by omega)]

theorem extendSlots_below (slots : List (Option (field Val))) (q : Int)
    (hq : q < (slots.length : Int)) : extendSlots slots q = slots := by
  unfold extendSlots
  rw [if_neg (by omega)]

/-- The extension panics only for a position at or above the slot count whose array of
`q + 1` slots cannot be allocated. -/
theorem growSlots_none (maxLen : Nat) (slots : List (Option (field Val))) (q : Int)
    (h : growSlots maxLen slots q = none) :
    0 ≤ q ∧ (slots.length : Int) ≤ q ∧ ¬ Allocatable maxLen (q.toNat + 1) := by
  have hge : (slots.length : Int) ≤ q := by
    by_contra hcon
    rw [growSlots_below maxLen slots q (by omega)] at h
    exact absurd h (by simp)
  have hq : 0 ≤ q := by omega
  refine ⟨hq, hge, fun ha => ?_⟩
  rw [growSlots_ok maxLen slots q hq ha] at h
  exact absurd h (by simp)

/-- The extension panics for a position at or above the slot count whose array of `q + 1`
slots cannot be allocated. -/
theorem growSlots_unallocatable (maxLen : Nat) (slots : List (Option (field Val))) (q : Int)
    (hge : (slots.length : Int) ≤ q) (hr : q < 2 ^ 63)
    (hna : ¬ Allocatable maxLen (q.toNat + 1)) :
    growSlots maxLen slots q = none := by
  unfold growSlots
  rw [if_pos hge]
  by_cases hk : wrapInt64 (wrapInt64 (1 + q) - (slots.length : Int)) < 0
  · rw [if_pos (Or.inl hk)]
  · rw [if_pos]
    right
    rintro ⟨h1, h2⟩
    apply hna
    have hkeq : wrapInt64 (wrapInt64 (1 + q) - (slots.length : Int))
        = 1 + q - (slots.length : Int) := by
      unfold wrapInt64 at hk h2 ⊢
      omega
    rw [hkeq] at h1 h2
    constructor <;> omega

/-- An extension that goes through gives the array of `extendSlots`. -/
theorem growSlots_some (maxLen : Nat) (slots l : List (Option (field Val))) (q : Int)
    (hr : q < 2 ^ 63) (h : growSlots maxLen slots q = some l) :
    l = extendSlots slots q := by
  by_cases hge : q ≥ (slots.length : Int)
  · unfold growSlots at h
    rw [if_pos hge] at h
    split at h
    · exact absurd h (by simp)
    · rename_i hcond
      have hk0 : ¬ wrapInt64 (wrapInt64 (1 + q) - (slots.length : Int)) < 0 :=
        fun hc => hcond (Or.inl hc)
      have hal : Allocatable maxLen (slots.length
          + (wrapInt64 (wrapInt64 (1 + q) - (slots.length : Int))).toNat) := by
        by_contra hc
        exact hcond (Or.inr hc)
      have hk : wrapInt64 (wrapInt64 (1 + q) - (slots.length : Int))
          = 1 + q - (slots.length : Int) := by
        have h2 := hal.2
        unfold wrapInt64 at hk0 h2 ⊢
        omega
      rw [hk] at h
      unfold extendSlots
      rw [if_pos hge]
      exact (Option.some.inj h).symm
  · rw [growSlots_below maxLen slots q (by omega)] at h
    rw [extendSlots_below slots q (by omega)]
    exact (Option.some.inj h).symm

/-- What a pass through the loop body that goes on to the next member has done. -/
theorem body_next (maxLen : Nat) (newField : Nat → StructField → Except Error (Option (field Val)))
    (tName : String) (i : Nat) (sf : StructField) (slots slots1 : List (Option (field Val)))
    (h : newTupleTypeBody maxLen newField tName i sf slots = LoopStep.next slots1) :
    (sf.Get "tuple" = "" ∧ slots1 = slots)
    ∨ ∃ q : Int, sf.Get "tuple" ≠ "" ∧ Atoi (sf.Get "tuple") = some q ∧ 0 ≤ q
        ∧ (extendSlots slots q)[q.toNat]? = some none
        ∧ ((newField i sf = Except.ok none ∧ slots1 = extendSlots slots q)
          ∨ ∃ f, newField i sf = Except.ok (some f)
              ∧ slots1 = (extendSlots slots q).set q.toNat (some f)) := by
  unfold newTupleTypeBody at h
  by_cases ht : sf.Get "tuple" = ""
  · left
    rw [if_pos ht] at h
    exact ⟨ht, (LoopStep.next.inj h).symm⟩
  · right
    rw [if_neg ht] at h
    cases ha : Atoi (sf.Get "tuple") with
    | none => simp [ha] at h
    | some q =>
        simp only [ha] at h
        cases hg : growSlots maxLen slots q with
        | none => simp [hg] at h
        | some l =>
            have hl := growSlots_some maxLen slots l q (atoi_range _ q ha).2 hg
            subst hl
            simp only [hg] at h
            by_cases hq : 0 ≤ q
            · obtain ⟨hgo, s, hs⟩ := goIndex_extendSlots slots q hq
              rw [hgo, hs] at h
              simp only [Option.getD_some] at h
              cases s with
              | some x => simp at h
              | none =>
                  simp only at h
                  refine ⟨q, ht, rfl, hq, hs, ?_⟩
                  cases hn : newField i sf with
                  | error err => simp [hn] at h
                  | ok r =>
                      cases r with
                      | none =>
                          simp only [hn] at h
                          exact Or.inl ⟨rfl, (LoopStep.next.inj h).symm⟩
                      | some f =>
                          simp only [hn] at h
                          exact Or.inr ⟨f, rfl, (LoopStep.next.inj h).symm⟩
            · have hgo : goIndex (extendSlots slots q) q = none := by
                unfold goIndex
                rw [if_pos (by omega)]
              rw [hgo] at h
              simp at h

/-- A pass through the loop body that leaves the function returns an error without a
schema, unless the declared position is negative or is at or above the slot count with an
array of that many slots plus one that cannot be allocated: then it panics. -/
theorem body_done (maxLen : Nat) (newField : Nat → StructField → Except Error (Option (field Val)))
    (tName : String) (i : Nat) (sf : StructField) (slots : List (Option (field Val)))
    (r : Outcome (Option (tupleType Val) × Option Error))
    (h : newTupleTypeBody maxLen newField tName i sf slots = LoopStep.done r) :
    (∃ e, r = Outcome.ret (none, some e))
    ∨ (r = Outcome.panic ∧ ∃ q : Int, Atoi (sf.Get "tuple") = some q
        ∧ (q < 0 ∨ ((slots.length : Int) ≤ q ∧ ¬ Allocatable maxLen (q.toNat + 1)))) := by
  unfold newTupleTypeBody at h
  by_cases ht : sf.Get "tuple" = ""
  · rw [if_pos ht] at h
    simp at h
  · rw [if_neg ht] at h
    cases ha : Atoi (sf.Get "tuple") with
    | none =>
        simp only [ha] at h
        exact Or.inl ⟨_, (LoopStep.done.inj h).symm⟩
    | some q =>
        simp only [ha] at h
        cases hg : growSlots maxLen slots q with
        | none =>
            simp only [hg] at h
            obtain ⟨_, hge, hna⟩ := growSlots_none maxLen slots q hg
            exact Or.inr ⟨(LoopStep.done.inj h).symm, q, rfl, Or.inr ⟨hge, hna⟩⟩
        | some l =>
            have hl := growSlots_some maxLen slots l q (atoi_range _ q ha).2 hg
            subst hl
            simp only [hg] at h
            by_cases hq : 0 ≤ q
            · obtain ⟨hgo, s, hs⟩ := goIndex_extendSlots slots q hq
              rw [hgo, hs] at h
              simp only [Option.getD_some] at h
              cases s with
              | some x =>
                  simp only at h
                  exact Or.inl ⟨_, (LoopStep.done.inj h).symm⟩
              | none =>
                  simp only at h
                  cases hn : newField i sf with
                  | error err =>
                      simp only [hn] at h
                      exact Or.inl ⟨_, (LoopStep.done.inj h).symm⟩
                  | ok r1 =>
                      cases r1 with
                      | none => simp [hn] at h
                      | some f => simp [hn] at h
            · have hgo : goIndex (extendSlots slots q) q = none := by
                unfold goIndex
                rw [if_pos (by omega)]
              rw [hgo] at h
              simp only at h
              exact Or.inr ⟨(LoopStep.done.inj h).symm, q, rfl, Or.inl (by omega)⟩

/-- A member that declares a position at or above the slot count whose array cannot be
allocated makes the loop body panic. -/
theorem body_unallocatable (maxLen : Nat)
    (newField : Nat → StructField → Except Error (Option (field Val)))
    (tName : String) (i : Nat) (sf : StructField) (slots : List (Option (field Val)))
    (q : Int) (ha : Atoi (sf.Get "tuple") = some q) (hge : (slots.length : Int) ≤ q)
    (hna : ¬ Allocatable maxLen (q.toNat + 1)) :
    newTupleTypeBody maxLen newField tName i sf slots = LoopStep.done Outcome.panic := by
  have ht : sf.Get "tuple" ≠ "" := by
    intro h
    rw [h, atoi_empty] at ha
    exact absurd ha (by simp)
  unfold newTupleTypeBody
  rw [if_neg ht]
  simp only [ha, growSlots_unallocatable maxLen slots q hge (atoi_range _ q ha).2 hna]

theorem body_next_preserves (maxLen : Nat) (newField : Nat → StructField → Except Error (Option (field Val)))
    (tName : String) (i : Nat) (sf : StructField) (slots slots1 : List (Option (field Val)))
    (h : newTupleTypeBody maxLen newField tName i sf slots = LoopStep.next slots1)
    (k : Nat) (x : field Val) (hk : slots[k]? = some (some x)) :
    slots1[k]? = some (some x) := by
  rcases body_next maxLen newField tName i sf slots slots1 h with ⟨_, rfl⟩ | ⟨q, _, _, _, hnone, hr⟩
  · exact hk
  · have hold := extendSlots_getElem?_old slots q k (some x) hk
    rcases hr with ⟨_, rfl⟩ | ⟨f, _, rfl⟩
    · exact hold
    · have hne : q.toNat ≠ k := by
        intro heq
        rw [heq, hold] at hnone
        exact absurd hnone (by simp)
      rw [List.getElem?_set_ne hne]
      exact hold

theorem body_next_length (maxLen : Nat) (newField : Nat → StructField → Except Error (Option (field Val)))
    (tName : String) (i : Nat) (sf : StructField) (slots slots1 : List (Option (field Val)))
    (h : newTupleTypeBody maxLen newField tName i sf slots = LoopStep.next slots1) :
    slots1.length = max slots.length (positionSucc sf) := by
  rcases body_next maxLen newField tName i sf slots slots1 h with ⟨ht, rfl⟩ | ⟨q, ht, ha, hq, _, hr⟩
  · simp [positionSucc, ht]
  · have hps : positionSucc sf = q.toNat + 1 := by
      simp only [positionSucc, ht, ha, if_false]
      omega
    rw [hps]
    rcases hr with ⟨_, rfl⟩ | ⟨f, _, rfl⟩
    · exact extendSlots_length slots q hq
    · rw [List.length_set]
      exact extendSlots_length slots q hq

theorem body_next_origin (maxLen : Nat) (newField : Nat → StructField → Except Error (Option (field Val)))
    (tName : String) (i : Nat) (sf : StructField) (slots slots1 : List (Option (field Val)))
    (h : newTupleTypeBody maxLen newField tName i sf slots = LoopStep.next slots1)
    (k : Nat) (x : field Val) (hk : slots1[k]? = some (some x)) :
    slots[k]? = some (some x) ∨ k < positionSucc sf := by
  rcases body_next maxLen newField tName i sf slots slots1 h with ⟨_, rfl⟩ | ⟨q, ht, ha, hq, _, hr⟩
  · exact Or.inl hk
  · have hps : positionSucc sf = q.toNat + 1 := by
      simp only [positionSucc, ht, ha, if_false]
      omega
    rcases hr with ⟨_, rfl⟩ | ⟨f, _, rfl⟩
    · exact Or.inl (extendSlots_getElem?_bound slots q k x hk)
    · by_cases hne : q.toNat = k
      · right
        omega
      · rw [List.getElem?_set_ne hne] at hk
        exact Or.inl (extendSlots_getElem?_bound slots q k x hk)

theorem body_occupied (maxLen : Nat) (newField : Nat → StructField → Except Error (Option (field Val)))
    (tName : String) (i : Nat) (sf : StructField) (slots : List (Option (field Val)))
    (p : Int) (x : field Val) (hp : Atoi (sf.Get "tuple") = some p) (h0 : 0 ≤ p)
    (hx : slots[p.toNat]? = some (some x)) :
    ∃ e, newTupleTypeBody maxLen newField tName i sf slots = LoopStep.done (Outcome.ret (none, some e)) := by
  cases hbody : newTupleTypeBody maxLen newField tName i sf slots with
  | next slots1 =>
      rcases body_next maxLen newField tName i sf slots slots1 hbody with
        ⟨ht, _⟩ | ⟨q, _, ha, _, hnone, _⟩
      · rw [ht, atoi_empty] at hp
        exact absurd hp (by simp)
      · rw [hp] at ha
        have hqp : p = q := Option.some.inj ha
        subst hqp
        rw [extendSlots_getElem?_old slots p p.toNat (some x) hx] at hnone
        exact absurd hnone (by simp)
  | done r =>
      rcases body_done maxLen newField tName i sf slots r hbody with ⟨e, rfl⟩ | ⟨_, q, ha, hq⟩
      · exact ⟨e, rfl⟩
      · rw [hp] at ha
        have hqp : p = q := Option.some.inj ha
        subst hqp
        have hlt : p.toNat < slots.length := by
          by_contra hcon
          rw [List.getElem?_eq_none (Nat.le_of_not_lt hcon)] at hx
          exact absurd hx (by simp)
        rcases hq with hq | ⟨hq, _⟩ <;> omega

theorem body_bind (maxLen : Nat) (newField : Nat → StructField → Except Error (Option (field Val)))
    (tName : String) (i : Nat) (sf : StructField) (slots : List (Option (field Val)))
    (p : Int) (f : field Val) (hp : Atoi (sf.Get "tuple") = some p) (h0 : 0 ≤ p)
    (hal : Allocatable maxLen (p.toNat + 1))
    (hf : newField i sf = Except.ok (some f)) :
    (∃ e, newTupleTypeBody maxLen newField tName i sf slots = LoopStep.done (Outcome.ret (none, some e)))
    ∨ ∃ slots1, newTupleTypeBody maxLen newField tName i sf slots = LoopStep.next slots1
        ∧ slots1[p.toNat]? = some (some f) := by
  cases hbody : newTupleTypeBody maxLen newField tName i sf slots with
  | next slots1 =>
      right
      refine ⟨slots1, rfl, ?_⟩
      rcases body_next maxLen newField tName i sf slots slots1 hbody with
        ⟨ht, _⟩ | ⟨q, _, ha, _, hnone, hr⟩
      · rw [ht, atoi_empty] at hp
        exact absurd hp (by simp)
      · rw [hp] at ha
        have hqp : p = q := Option.some.inj ha
        subst hqp
        rcases hr with ⟨hn, _⟩ | ⟨g, hg, rfl⟩
        · rw [hf] at hn
          exact absurd hn (by simp)
        · rw [hf] at hg
          have hfg : f = g := Option.some.inj (Except.ok.inj hg)
          subst hfg
          have hlt : p.toNat < (extendSlots slots p).length := by
            by_contra hcon
            rw [List.getElem?_eq_none (Nat.le_of_not_lt hcon)] at hnone
            exact absurd hnone (by simp)
          rw [List.getElem?_set_self hlt]
  | done r =>
      left
      rcases body_done maxLen newField tName i sf slots r hbody with ⟨e, rfl⟩ | ⟨_, q, ha, hq⟩
      · exact ⟨e, rfl⟩
      · rw [hp] at ha
        have hqp : p = q := Option.some.inj ha
        subst hqp
        rcases hq with hq | ⟨_, hna⟩
        · omega
        · exact absurd hal hna

theorem loop_cons_next (maxLen : Nat) (newField : Nat → StructField → Except Error (Option (field Val)))
    (tName : String) (i : Nat) (sf : StructField) (rest : List StructField)
    (slots slots1 : List (Option (field Val)))
    (h : newTupleTypeBody maxLen newField tName i sf slots = LoopStep.next slots1) :
    newTupleTypeLoop maxLen newField tName (sf :: rest) i slots
      = newTupleTypeLoop maxLen newField tName rest (i + 1) slots1 := by
  simp only [newTupleTypeLoop, h]

theorem loop_cons_done (maxLen : Nat) (newField : Nat → StructField → Except Error (Option (field Val)))
    (tName : String) (i : Nat) (sf : StructField) (rest : List StructField)
    (slots : List (Option (field Val))) (r : Outcome (Option (tupleType Val) × Option Error))
    (h : newTupleTypeBody maxLen newField tName i sf slots = LoopStep.done r) :
    newTupleTypeLoop maxLen newField tName (sf :: rest) i slots = r := by
  simp only [newTupleTypeLoop, h]

/-- Once slot `p` is bound, a later member that declares `p` makes the loop return an
error, when no member in between declares a negative position. -/
theorem loop_occupied (maxLen : Nat) (newField : Nat → StructField → Except Error (Option (field Val)))
    (tName : String) (sfj : StructField) (post : List StructField) (p : Int)
    (hj : Atoi (sfj.Get "tuple") = some p) (h0 : 0 ≤ p) (mid : List StructField) :
    ∀ (i : Nat) (slots : List (Option (field Val))),
      (∀ sf ∈ mid, ∀ q : Int, Atoi (sf.Get "tuple") = some q →
        0 ≤ q ∧ Allocatable maxLen (q.toNat + 1)) →
      (∃ x, slots[p.toNat]? = some (some x)) →
      ∃ e, newTupleTypeLoop maxLen newField tName (mid ++ sfj :: post) i slots
        = Outcome.ret (none, some e) := by
  induction mid with
  | nil =>
      intro i slots _ hx
      obtain ⟨x, hx⟩ := hx
      obtain ⟨e, he⟩ := body_occupied maxLen newField tName i sfj slots p x hj h0 hx
      exact ⟨e, by rw [List.nil_append, loop_cons_done maxLen newField tName i sfj post slots _ he]⟩
  | cons sf mid ih =>
      intro i slots hnn hx
      obtain ⟨x, hx⟩ := hx
      rw [List.cons_append]
      cases hbody : newTupleTypeBody maxLen newField tName i sf slots with
      | next slots1 =>
          rw [loop_cons_next maxLen newField tName i sf _ slots slots1 hbody]
          exact ih (i + 1) slots1 (fun sf1 h1 => hnn sf1 (List.mem_cons_of_mem _ h1))
            ⟨x, body_next_preserves maxLen newField tName i sf slots slots1 hbody p.toNat x hx⟩
      | done r =>
          rw [loop_cons_done maxLen newField tName i sf _ slots r hbody]
          rcases body_done maxLen newField tName i sf slots r hbody with ⟨e, rfl⟩ | ⟨_, q, ha, hq⟩
          · exact ⟨e, rfl⟩
          · have hsf := hnn sf (List.mem_cons_self _ _) q ha
            rcases hq with hq | ⟨_, hna⟩
            · omega
            · exact absurd hsf.2 hna

theorem loop_duplicate (maxLen : Nat) (newField : Nat → StructField → Except Error (Option (field Val)))
    (tName : String) (sfi sfj : StructField) (mid post : List StructField) (p : Int)
    (f : field Val)
    (hi : Atoi (sfi.Get "tuple") = some p) (hj : Atoi (sfj.Get "tuple") = some p) (h0 : 0 ≤ p)
    (hal : Allocatable maxLen (p.toNat + 1))
    (hmid : ∀ sf ∈ mid, ∀ q : Int, Atoi (sf.Get "tuple") = some q →
      0 ≤ q ∧ Allocatable maxLen (q.toNat + 1))
    (pre : List StructField) :
    ∀ (i : Nat) (slots : List (Option (field Val))),
      (∀ sf ∈ pre, ∀ q : Int, Atoi (sf.Get "tuple") = some q →
        0 ≤ q ∧ Allocatable maxLen (q.toNat + 1)) →
      newField (i + pre.length) sfi = Except.ok (some f) →
      ∃ e, newTupleTypeLoop maxLen newField tName (pre ++ sfi :: (mid ++ sfj :: post)) i slots
        = Outcome.ret (none, some e) := by
  induction pre with
  | nil =>
      intro i slots _ hf
      rw [List.nil_append]
      rcases body_bind maxLen newField tName i sfi slots p f hi h0 hal (by simpa using hf) with
        ⟨e, he⟩ | ⟨slots1, hnext, hb⟩
      · exact ⟨e, loop_cons_done maxLen newField tName i sfi _ slots _ he⟩
      · rw [loop_cons_next maxLen newField tName i sfi _ slots slots1 hnext]
        exact loop_occupied maxLen newField tName sfj post p hj h0 mid (i + 1) slots1 hmid ⟨f, hb⟩
  | cons sf pre ih =>
      intro i slots hnn hf
      rw [List.cons_append]
      cases hbody : newTupleTypeBody maxLen newField tName i sf slots with
      | next slots1 =>
          rw [loop_cons_next maxLen newField tName i sf _ slots slots1 hbody]
          apply ih (i + 1) slots1 (fun sf1 h1 => hnn sf1 (List.mem_cons_of_mem _ h1))
          rw [← hf]
          congr 1
          simp only [List.length_cons]
          omega
      | done r =>
          rw [loop_cons_done maxLen newField tName i sf _ slots r hbody]
          rcases body_done maxLen newField tName i sf slots r hbody with ⟨e, rfl⟩ | ⟨_, q, ha, hq⟩
          · exact ⟨e, rfl⟩
          · have hsf := hnn sf (List.mem_cons_self _ _) q ha
            rcases hq with hq | ⟨_, hna⟩
            · omega
            · exact absurd hsf.2 hna

/-- C3, as amended. Duplicate-position rejection: when two members declare positions that
parse to the same non-negative integer p, newField returns a field for the earlier of the
two, no member before the later one declares a negative position, and a slot array of
1 + p slots, and of 1 + q slots for every position q declared before the later member,
can be allocated, newTupleType fails with an error and returns no schema. -/
theorem duplicate_position_rejected
    (maxLen : Nat) (newField : Nat → StructField → Except Error (Option (field Val)))
    (tName : String) (pre mid post : List StructField) (sfi sfj : StructField) (p : Int)
    (f : field Val)
    (hi : Atoi (sfi.Get "tuple") = some p) (hj : Atoi (sfj.Get "tuple") = some p) (h0 : 0 ≤ p)
    (hal : Allocatable maxLen (p.toNat + 1))
    (hbound : newField pre.length sfi = Except.ok (some f))
    (hnn : ∀ sf ∈ pre ++ mid, ∀ q : Int, Atoi (sf.Get "tuple") = some q →
      0 ≤ q ∧ Allocatable maxLen (q.toNat + 1)) :
    ∃ e, newTupleType maxLen newField ⟨tName, pre ++ sfi :: (mid ++ sfj :: post)⟩
      = Outcome.ret (none, some e) := by
  unfold newTupleType
  exact loop_duplicate maxLen newField tName sfi sfj mid post p f hi hj h0 hal
    (fun sf h => hnn sf (List.mem_append_right _ h)) pre 0 _
    (fun sf h => hnn sf (List.mem_append_left _ h)) (by simpa using hbound)

/-- Witness of C3 as amended: the two members of `Twin` both declare position 0 and are
both wrapped. -/
theorem duplicate_position_rejected_witness :
    Atoi ((⟨"A", "string", [("tuple", "0")]⟩ : StructField).Get "tuple") = some 0
    ∧ Atoi ((⟨"B", "string", [("tuple", "0")]⟩ : StructField).Get "tuple") = some 0
    ∧ ∃ e, newTupleType goMaxLen exampleNewField
        ⟨"Twin", [] ++ ⟨"A", "string", [("tuple", "0")]⟩
          :: ([] ++ ⟨"B", "string", [("tuple", "0")]⟩ :: [])⟩ = Outcome.ret (none, some e) :=
  ⟨by decide, by decide,
    duplicate_position_rejected goMaxLen exampleNewField "Twin" [] [] []
      ⟨"A", "string", [("tuple", "0")]⟩ ⟨"B", "string", [("tuple", "0")]⟩ 0 (stringField 0)
      (by decide) (by decide) (le_refl 0) (by decide) rfl (by simp)⟩

/-- Counterexample to C3 as stated: both members of `SkippedTwin` declare position 0, the
first is one for which newField returns no field, and newTupleType returns a schema and no
error, its slot 0 bound to the second member. -/
theorem duplicate_position_accepted :
    Atoi ((⟨"Old", "string", [("tuple", "0"), ("skip", "true")]⟩ : StructField).Get "tuple")
        = some 0
    ∧ Atoi ((⟨"New", "string", [("tuple", "0")]⟩ : StructField).Get "tuple") = some 0
    ∧ exampleNewField 0 ⟨"Old", "string", [("tuple", "0"), ("skip", "true")]⟩ = Except.ok none
    ∧ ∃ tt : tupleType GoVal,
        newTupleType goMaxLen exampleNewField SkippedTwin = Outcome.ret (some tt, none)
        ∧ slotIndices tt = [some 1, none] :=
  ⟨by decide, by decide, rfl, _, rfl, by decide⟩

/-- Both members of `HugeTwin` declare position 2^63 - 1: the extension of the slot array
for the first member panics, whatever the runtime's limit, and no error is returned for
the repeated position. -/
theorem hugeTwin_panics (maxLen : Nat) :
    newTupleType maxLen exampleNewField HugeTwin = Outcome.panic := by
  unfold newTupleType
  exact loop_cons_done maxLen exampleNewField _ 0 _ _ _ _
    (body_unallocatable maxLen exampleNewField _ 0 _ _ 9223372036854775807 (by decide)
      (by decide) (fun h => absurd h.2 (by decide)))

/-- The slot array of a schema the loop returns: its length, and where its bound slots
come from. -/
theorem loop_schema (maxLen : Nat) (newField : Nat → StructField → Except Error (Option (field Val)))
    (tName : String) (fields : List StructField) :
    ∀ (i : Nat) (slots : List (Option (field Val))) (tt : tupleType Val),
      newTupleTypeLoop maxLen newField tName fields i slots = Outcome.ret (some tt, none) →
      tt.tupleOrderedFields.length = max slots.length (maxPositionSucc fields)
      ∧ ∀ (k : Nat) (x : field Val), tt.tupleOrderedFields[k]? = some (some x) →
          slots[k]? = some (some x) ∨ k < maxPositionSucc fields := by
  induction fields with
  | nil =>
      intro i slots tt h
      simp only [newTupleTypeLoop, Outcome.ret.injEq, Prod.mk.injEq, Option.some.injEq,
        and_true] at h
      subst h
      exact ⟨by simp [maxPositionSucc], fun k x hk => Or.inl hk⟩
  | cons sf rest ih =>
      intro i slots tt h
      have hmax : maxPositionSucc (sf :: rest) = max (positionSucc sf) (maxPositionSucc rest) := rfl
      cases hbody : newTupleTypeBody maxLen newField tName i sf slots with
      | next slots1 =>
          rw [loop_cons_next maxLen newField tName i sf rest slots slots1 hbody] at h
          obtain ⟨hlen, hor⟩ := ih (i + 1) slots1 tt h
          have hl1 := body_next_length maxLen newField tName i sf slots slots1 hbody
          refine ⟨by rw [hlen, hl1, hmax]; omega, ?_⟩
          intro k x hk
          rcases hor k x hk with h1 | h1
          · rcases body_next_origin maxLen newField tName i sf slots slots1 hbody k x h1 with h2 | h2
            · exact Or.inl h2
            · right
              rw [hmax]
              omega
          · right
            rw [hmax]
            omega
      | done r =>
          rw [loop_cons_done maxLen newField tName i sf rest slots r hbody] at h
          rcases body_done maxLen newField tName i sf slots r hbody with ⟨e, he⟩ | ⟨he, _⟩
          · rw [he] at h
            simp at h
          · rw [he] at h
            simp at h

theorem newTupleType_schema (maxLen : Nat) (newField : Nat → StructField → Except Error (Option (field Val)))
    (t : StructType) (tt : tupleType Val)
    (h : newTupleType maxLen newField t = Outcome.ret (some tt, none)) :
    tt.tupleOrderedFields.length = max t.Fields.length (maxPositionSucc t.Fields)
    ∧ ∀ (k : Nat) (x : field Val), tt.tupleOrderedFields[k]? = some (some x) →
        k < maxPositionSucc t.Fields := by
  obtain ⟨hlen, hor⟩ := loop_schema maxLen newField t.Name t.Fields 0 _ tt h
  rw [List.length_replicate] at hlen
  refine ⟨hlen, fun k x hk => ?_⟩
  rcases hor k x hk with h1 | h1
  · have := List.getElem?_mem h1
    simp at this
  · exact h1

/-- C4, as amended. Schema length: on success the slot array holds every declared
position; its length equals the largest declared position plus one when the type has no
more members than that, and equals the number of members otherwise (so for a type without
members it is 0); every slot from the largest declared position plus one on is empty. -/
theorem schema_length (maxLen : Nat) (newField : Nat → StructField → Except Error (Option (field Val)))
    (t : StructType) (tt : tupleType Val)
    (h : newTupleType maxLen newField t = Outcome.ret (some tt, none)) :
    maxPositionSucc t.Fields ≤ tt.tupleOrderedFields.length
    ∧ (t.Fields.length ≤ maxPositionSucc t.Fields →
        tt.tupleOrderedFields.length = maxPositionSucc t.Fields)
    ∧ (maxPositionSucc t.Fields ≤ t.Fields.length →
        tt.tupleOrderedFields.length = t.Fields.length)
    ∧ (t.Fields = [] → tt.tupleOrderedFields.length = 0)
    ∧ ∀ k : Nat, maxPositionSucc t.Fields ≤ k → k < tt.tupleOrderedFields.length →
        tt.tupleOrderedFields[k]? = some none := by
  obtain ⟨hlen, hb⟩ := newTupleType_schema maxLen newField t tt h
  refine ⟨by omega, fun h1 => by omega, fun h1 => by omega, ?_, ?_⟩
  · intro hnil
    rw [hlen, hnil]
    rfl
  · intro k hk hlt
    rw [List.getElem?_eq_getElem hlt]
    cases hs : tt.tupleOrderedFields[k] with
    | none => rfl
    | some x =>
        have := hb k x (by rw [List.getElem?_eq_getElem hlt, hs])
        omega

/-- Witness of C4 as amended: `Config` with a third member, placed at position 4; the five
slots are positions 0..4, slots 2 and 3 being gaps. -/
theorem schema_length_witness :
    newTupleType goMaxLen exampleNewField Config3
        = Outcome.ret (some (tupleType.mk [some (boolStringField 0), some (stringField 1),
            none, none, some (uint32Field 2)]), none)
    ∧ maxPositionSucc Config3.Fields = 5
    ∧ Config3.Fields.length = 3
    ∧ (tupleType.mk [some (boolStringField 0), some (stringField 1),
            none, none, some (uint32Field 2)]).tupleOrderedFields.length = 5 :=
  ⟨rfl, by decide, rfl,
    (schema_length goMaxLen exampleNewField Config3
      (tupleType.mk [some (boolStringField 0), some (stringField 1), none, none,
        some (uint32Field 2)]) rfl).2.1 (by decide)⟩

/-- Counterexample to C4 as stated: the type whose only member has no tuple tag gets a
slot array of length 1, not 0, and `Config` with a member without a tuple tag gets three
slots, the last of them empty and above the highest bound position, 1. -/
theorem schema_length_counts_untagged :
    (∃ tt : tupleType GoVal,
      newTupleType goMaxLen exampleNewField Untagged = Outcome.ret (some tt, none)
      ∧ maxPositionSucc Untagged.Fields = 0
      ∧ tt.tupleOrderedFields.length = 1)
    ∧ ∃ tt : tupleType GoVal,
      newTupleType goMaxLen exampleNewField ConfigNote = Outcome.ret (some tt, none)
      ∧ slotIndices tt = [some 0, some 1, none]
      ∧ maxPositionSucc ConfigNote.Fields = 2
      ∧ tt.tupleOrderedFields.length = 3 :=
  ⟨⟨_, rfl, by decide, rfl⟩, ⟨_, rfl, by decide, by decide, rfl⟩⟩

end Schema

section BoolStringMarshal
open boolStringMarshaler

/-- C11. Bool-string marshal: for every boolean, MarshalCassandra returns no error and
returns the bytes of the text "true" for true and of the text "false" for false. -/
theorem boolString_marshal (mb : Bool) :
    MarshalCassandra mb = (some (if mb then strBytes "true" else strBytes "false"), none)
    ∧ (MarshalCassandra mb).2 = none
    ∧ MarshalCassandra true = (some [116, 114, 117, 101], none)
    ∧ MarshalCassandra false = (some [102, 97, 108, 115, 101], none) := by
  refine ⟨?_, rfl, by decide, by decide⟩
  cases mb <;> rfl

/-- C17. Bool-string round trip: for every boolean and every prior value of the target,
MarshalCassandra returns bytes and UnmarshalCassandra on those bytes returns no error and
sets the target to that boolean. -/
theorem boolString_roundtrip (mb prior : Bool) :
    ∃ bs : Bytes, MarshalCassandra mb = (some bs, none)
      ∧ UnmarshalCassandra bs prior = (mb, none) := by
  refine ⟨strBytes (FormatBool mb), rfl, ?_⟩
  cases mb <;> cases prior <;> decide

end BoolStringMarshal

section Trailing
open tupleMarshaler

variable {Val : Type}

theorem beU32_lt (a b c d : Byte) : beU32 a b c d < 2 ^ 32 := by
  have ha := a.isLt
  have hb := b.isLt
  have hc := c.isLt
  have hd := d.isLt
  unfold beU32
  omega

theorem unpackAux_component_length (fuel : Nat) : ∀ (b : Bytes) (comps : List Bytes),
    unpackAux fuel b = some comps → ∀ c ∈ comps, c.length < 2 ^ 32 := by
  induction fuel with
  | zero =>
      intro b comps h c hc
      cases b with
      | nil =>
          simp only [unpackAux, Option.some.injEq] at h
          subst h
          simp at hc
      | cons x xs => simp [unpackAux] at h
  | succ n ih =>
      intro b comps h c hc
      match b, h with
      | [], h =>
          simp only [unpackAux, Option.some.injEq] at h
          subst h
          simp at hc
      | [_], h => simp [unpackAux] at h
      | [_, _], h => simp [unpackAux] at h
      | [_, _, _], h => simp [unpackAux] at h
      | b0 :: b1 :: b2 :: b3 :: rest, h =>
          simp only [unpackAux] at h
          split at h
          · simp at h
          · cases hr : unpackAux n (rest.drop (beU32 b0 b1 b2 b3)) with
            | none => simp [hr] at h
            | some cs =>
                simp only [hr, Option.map_some', Option.some.injEq] at h
                subst h
                rcases List.mem_cons.mp hc with rfl | hmem
                · have h1 := beU32_lt b0 b1 b2 b3
                  have h2 : (rest.take (beU32 b0 b1 b2 b3)).length ≤ beU32 b0 b1 b2 b3 := by
                    rw [List.length_take]
                    exact Nat.min_le_left _ _
                  omega
                · exact ih _ cs hr c hmem

theorem unmarshalLoop_agree (comps comps1 : List Bytes) (fs : List (Option (field Val))) :
    ∀ (i : Nat) (rv : Record Val),
      (∀ k : Nat, k < fs.length → comps1[i + k]? = comps[i + k]?) →
      unmarshalLoop comps1 fs i rv = unmarshalLoop comps fs i rv := by
  induction fs with
  | nil =>
      intro i rv _
      rfl
  | cons s fs ih =>
      intro i rv h
      have h0 : comps1[i]? = comps[i]? := by
        have := h 0 (by simp)
        simpa using this
      have hnext : ∀ k : Nat, k < fs.length → comps1[i + 1 + k]? = comps[i + 1 + k]? := by
        intro k hk
        have := h (k + 1) (by simp only [List.length_cons]; omega)
        have e1 : i + (k + 1) = i + 1 + k := by omega
        rwa [e1] at this
      cases hc : comps[i]? with
      | none =>
          rw [unmarshalLoop_break comps s fs i rv hc,
            unmarshalLoop_break comps1 s fs i rv (h0.trans hc)]
      | some c =>
          have hc1 : comps1[i]? = some c := h0.trans hc
          cases s with
          | none =>
              rw [unmarshalLoop_skip comps fs i rv c hc, unmarshalLoop_skip comps1 fs i rv c hc1]
              exact ih (i + 1) rv hnext
          | some f =>
              cases hr : (f.unmarshalValue c rv).2 with
              | none =>
                  rw [unmarshalLoop_ok comps f fs i rv c hc hr,
                    unmarshalLoop_ok comps1 f fs i rv c hc1 hr]
                  exact ih (i + 1) _ hnext
              | some e1 =>
                  rw [unmarshalLoop_err comps f fs i rv c e1 hc hr,
                    unmarshalLoop_err comps1 f fs i rv c e1 hc1 hr]

/-- C15. Trailing components are ignored: when the buffer unpacks to more components than
the schema has slots, UnmarshalCassandra returns exactly what it returns on a buffer that
holds the first N components only (such a buffer exists), result and instance alike; an
error it returns is the error of a bound slot below N on that slot's component. -/
theorem unmarshal_trailing_ignored (unpack : Bytes → List Bytes) (hdec : Unpacks unpack)
    (tt : tupleType Val) (b : Bytes) (comps : List Bytes)
    (rv : Record Val) (hb : unpackTuple b = some comps)
    (hN : tt.tupleOrderedFields.length < comps.length) :
    (comps.take tt.tupleOrderedFields.length).length = tt.tupleOrderedFields.length
    ∧ (∃ b1 : Bytes, unpackTuple b1 = some (comps.take tt.tupleOrderedFields.length))
    ∧ (∀ b1 : Bytes, unpackTuple b1 = some (comps.take tt.tupleOrderedFields.length) →
        UnmarshalCassandra unpack tt b rv = UnmarshalCassandra unpack tt b1 rv)
    ∧ ∀ (rv1 : Record Val) (e : Error), UnmarshalCassandra unpack tt b rv = (rv1, some e) →
        ∃ (i : Nat) (f : field Val) (c : Bytes) (t : Record Val),
          i < tt.tupleOrderedFields.length ∧ tt.tupleOrderedFields[i]? = some (some f)
            ∧ comps[i]? = some c ∧ f.unmarshalValue c t = (rv1, some e) := by
  refine ⟨?_, ?_, ?_, ?_⟩
  · rw [List.length_take]
    omega
  · refine ⟨((comps.take tt.tupleOrderedFields.length).map
        (fun p => be32 p.length ++ p)).flatten, ?_⟩
    apply unpackTuple_frames
    intro p hp
    exact unpackAux_component_length b.length b comps hb p (List.mem_of_mem_take hp)
  · intro b1 hb1
    simp only [UnmarshalCassandra, hdec b comps hb, hdec b1 _ hb1]
    symm
    apply unmarshalLoop_agree
    intro k hk
    rw [List.getElem?_take]
    simp only [Nat.zero_add, hk, if_true]
  · intro rv1 e h
    simp only [UnmarshalCassandra, hdec b comps hb] at h
    obtain ⟨k, f, c, t, h1, h2, h3⟩ :=
      unmarshalLoop_error_origin comps tt.tupleOrderedFields 0 rv rv1 e h
    have hk : k < tt.tupleOrderedFields.length := by
      by_contra hcon
      rw [List.getElem?_eq_none (Nat.le_of_not_lt hcon)] at h1
      exact absurd h1 (by simp)
    exact ⟨k, f, c, t, hk, h1, by simpa using h2, h3⟩

/-- Witness of C15: one string slot, a buffer of two components; the second component is
not applied, and the call gives what it gives on the buffer with the first alone. -/
theorem unmarshal_trailing_ignored_witness :
    unpackTuple [0, 0, 0, 1, 97, 0, 0, 0, 2, 255, 254] = some [[97], [255, 254]]
    ∧ unpackTuple [0, 0, 0, 1, 97] = some [[97]]
    ∧ UnmarshalCassandra exampleUnpack (tupleType.mk [some (stringField 0)])
        [0, 0, 0, 1, 97, 0, 0, 0, 2, 255, 254] zeroRecord
      = UnmarshalCassandra exampleUnpack (tupleType.mk [some (stringField 0)])
          [0, 0, 0, 1, 97] zeroRecord :=
  ⟨by decide, by decide,
    (unmarshal_trailing_ignored exampleUnpack exampleUnpack_unpacks
      (tupleType.mk [some (stringField 0)])
      [0, 0, 0, 1, 97, 0, 0, 0, 2, 255, 254] [[97], [255, 254]] zeroRecord
      (by decide) (by decide)).2.2.1 [0, 0, 0, 1, 97] (by decide)⟩

end Trailing

section SchemaLength

variable {Val : Type}

theorem positionSucc_le_max (fields : List StructField) (sf : StructField) (h : sf ∈ fields) :
    positionSucc sf ≤ maxPositionSucc fields := by
  induction fields with
  | nil => simp at h
  | cons x xs ih =>
      have hmax : maxPositionSucc (x :: xs) = max (positionSucc x) (maxPositionSucc xs) := rfl
      rw [hmax]
      rcases List.mem_cons.mp h with rfl | h1
      · exact Nat.le_max_left _ _
      · exact Nat.le_trans (ih h1) (Nat.le_max_right _ _)

theorem maxPositionSucc_attained (fields : List StructField) :
    maxPositionSucc fields = 0 ∨ ∃ sf ∈ fields, positionSucc sf = maxPositionSucc fields := by
  induction fields with
  | nil => exact Or.inl rfl
  | cons x xs ih =>
      have hmax : maxPositionSucc (x :: xs) = max (positionSucc x) (maxPositionSucc xs) := rfl
      rw [hmax]
      rcases Nat.le_total (maxPositionSucc xs) (positionSucc x) with hle | hle
      · right
        exact ⟨x, List.mem_cons_self _ _, by rw [Nat.max_eq_left hle]⟩
      · rw [Nat.max_eq_right hle]
        rcases ih with h0 | ⟨sf, hsf, he⟩
        · exact Or.inl h0
        · exact Or.inr ⟨sf, List.mem_cons_of_mem _ hsf, he⟩

theorem maxPositionSucc_untagged (fields : List StructField)
    (h : ∀ sf ∈ fields, sf.Get "tuple" = "") : maxPositionSucc fields = 0 := by
  rcases maxPositionSucc_attained fields with h0 | ⟨sf, hsf, he⟩
  · exact h0
  · rw [← he]
    simp [positionSucc, h sf hsf]

/-- On success every member with a tuple tag declares a non-negative integer. -/
theorem loop_success_annotations
    (maxLen : Nat) (newField : Nat → StructField → Except Error (Option (field Val))) (tName : String)
    (fields : List StructField) :
    ∀ (i : Nat) (slots : List (Option (field Val))) (tt : tupleType Val),
      newTupleTypeLoop maxLen newField tName fields i slots = Outcome.ret (some tt, none) →
      ∀ sf ∈ fields, sf.Get "tuple" ≠ "" →
        ∃ q : Int, Atoi (sf.Get "tuple") = some q ∧ 0 ≤ q := by
  induction fields with
  | nil =>
      intro i slots tt _ sf hsf
      simp at hsf
  | cons x xs ih =>
      intro i slots tt h sf hsf ht
      cases hbody : newTupleTypeBody maxLen newField tName i x slots with
      | next slots1 =>
          rw [loop_cons_next maxLen newField tName i x xs slots slots1 hbody] at h
          rcases List.mem_cons.mp hsf with rfl | hmem
          · rcases body_next maxLen newField tName i sf slots slots1 hbody with
              ⟨h1, _⟩ | ⟨q, _, ha, hq, _, _⟩
            · exact absurd h1 ht
            · exact ⟨q, ha, hq⟩
          · exact ih (i + 1) slots1 tt h sf hmem ht
      | done r =>
          rw [loop_cons_done maxLen newField tName i x xs slots r hbody] at h
          rcases body_done maxLen newField tName i x slots r hbody with ⟨e, he⟩ | ⟨he, _⟩
          · rw [he] at h
            simp at h
          · rw [he] at h
            simp at h

end SchemaLength

section SchemaTotality

variable {Val : Type}

theorem body_negative (maxLen : Nat) (newField : Nat → StructField → Except Error (Option (field Val)))
    (tName : String) (i : Nat) (sf : StructField) (slots : List (Option (field Val)))
    (q : Int) (ha : Atoi (sf.Get "tuple") = some q) (hq : q < 0) :
    newTupleTypeBody maxLen newField tName i sf slots = LoopStep.done Outcome.panic := by
  have ht : sf.Get "tuple" ≠ "" := by
    intro h
    rw [h, atoi_empty] at ha
    exact absurd ha (by simp)
  have hgo : goIndex slots q = none := by
    unfold goIndex
    rw [if_pos hq]
  unfold newTupleTypeBody
  rw [if_neg ht]
  simp only [ha, growSlots_below maxLen slots q (by omega), hgo]

theorem body_malformed (maxLen : Nat) (newField : Nat → StructField → Except Error (Option (field Val)))
    (tName : String) (i : Nat) (sf : StructField) (slots : List (Option (field Val)))
    (ht : sf.Get "tuple" ≠ "") (ha : Atoi (sf.Get "tuple") = none) :
    newTupleTypeBody maxLen newField tName i sf slots
      = LoopStep.done (Outcome.ret (none, some (Error.invalidTupleTag tName (sf.Get "tuple")))) := by
  unfold newTupleTypeBody
  rw [if_neg ht]
  simp only [ha]

/-- The loop does not panic when no member declares a negative position or a position
whose slot array cannot be allocated. -/
theorem loop_no_panic (maxLen : Nat) (newField : Nat → StructField → Except Error (Option (field Val)))
    (tName : String) (fields : List StructField) :
    ∀ (i : Nat) (slots : List (Option (field Val))),
      (∀ sf ∈ fields, ∀ q : Int, Atoi (sf.Get "tuple") = some q →
        0 ≤ q ∧ Allocatable maxLen (q.toNat + 1)) →
      newTupleTypeLoop maxLen newField tName fields i slots ≠ Outcome.panic := by
  induction fields with
  | nil =>
      intro i slots _
      simp [newTupleTypeLoop]
  | cons sf rest ih =>
      intro i slots hnn
      cases hbody : newTupleTypeBody maxLen newField tName i sf slots with
      | next slots1 =>
          rw [loop_cons_next maxLen newField tName i sf rest slots slots1 hbody]
          exact ih (i + 1) slots1 (fun sf1 h1 => hnn sf1 (List.mem_cons_of_mem _ h1))
      | done r =>
          rw [loop_cons_done maxLen newField tName i sf rest slots r hbody]
          rcases body_done maxLen newField tName i sf slots r hbody with ⟨e, rfl⟩ | ⟨_, q, ha, hq⟩
          · simp
          · have hsf := hnn sf (List.mem_cons_self _ _) q ha
            rcases hq with hq | ⟨_, hna⟩
            · omega
            · exact absurd hsf.2 hna

/-- A member whose tuple tag is not an integer makes the loop return an error, when no
member before it declares a negative position or a position whose slot array cannot be
allocated. -/
theorem loop_malformed (maxLen : Nat) (newField : Nat → StructField → Except Error (Option (field Val)))
    (tName : String) (sf : StructField) (post : List StructField)
    (ht : sf.Get "tuple" ≠ "") (ha : Atoi (sf.Get "tuple") = none) (pre : List StructField) :
    ∀ (i : Nat) (slots : List (Option (field Val))),
      (∀ sf1 ∈ pre, ∀ q : Int, Atoi (sf1.Get "tuple") = some q →
        0 ≤ q ∧ Allocatable maxLen (q.toNat + 1)) →
      ∃ e, newTupleTypeLoop maxLen newField tName (pre ++ sf :: post) i slots
        = Outcome.ret (none, some e) := by
  induction pre with
  | nil =>
      intro i slots _
      exact ⟨_, by rw [List.nil_append,
        loop_cons_done maxLen newField tName i sf post slots _ (body_malformed maxLen newField tName i sf slots ht ha)]⟩
  | cons x xs ih =>
      intro i slots hnn
      rw [List.cons_append]
      cases hbody : newTupleTypeBody maxLen newField tName i x slots with
      | next slots1 =>
          rw [loop_cons_next maxLen newField tName i x _ slots slots1 hbody]
          exact ih (i + 1) slots1 (fun sf1 h1 => hnn sf1 (List.mem_cons_of_mem _ h1))
      | done r =>
          rw [loop_cons_done maxLen newField tName i x _ slots r hbody]
          rcases body_done maxLen newField tName i x slots r hbody with ⟨e, rfl⟩ | ⟨_, q, hq1, hq2⟩
          · exact ⟨e, rfl⟩
          · have hx := hnn x (List.mem_cons_self _ _) q hq1
            rcases hq2 with hq2 | ⟨_, hna⟩
            · omega
            · exact absurd hx.2 hna

/-- C14. The code at the failing input: the member of `Negative` carries the tuple tag
"-1", which parses as the integer -1; the slot array is not grown, the index expression
of line 118 is out of range, and newTupleType panics, whatever newField does, instead of
returning a schema or an error. -/
theorem negative_position_panics
    (maxLen : Nat) (newField : Nat → StructField → Except Error (Option (field Val))) :
    Atoi "-1" = some (-1)
    ∧ goIndex (List.replicate 1 (none : Option (field Val))) (-1) = none
    ∧ newTupleType maxLen newField Negative = Outcome.panic := by
  refine ⟨by decide, rfl, ?_⟩
  unfold newTupleType
  exact loop_cons_done maxLen newField _ 0 _ [] _ _
    (body_negative maxLen newField _ 0 _ _ (-1) (by decide) (by decide))

/-- C12. The code at the failing input: the second member of `NegativeThenMalformed` has
the tuple tag "x", which is not empty and not the text of an integer, and newTupleType
panics at the first member, which declares -1, instead of returning an error; without
the negative position (`Malformed`) the error for the tag is returned. -/
theorem malformed_after_negative_panics
    (maxLen : Nat) (newField : Nat → StructField → Except Error (Option (field Val))) :
    (∃ sf, NegativeThenMalformed.Fields[1]? = some sf ∧ sf.Get "tuple" ≠ ""
      ∧ Atoi (sf.Get "tuple") = none)
    ∧ newTupleType maxLen newField NegativeThenMalformed = Outcome.panic
    ∧ newTupleType goMaxLen exampleNewField Malformed
        = Outcome.ret (none, some (Error.invalidTupleTag "Malformed" "x")) := by
  refine ⟨⟨_, rfl, by decide, by decide⟩, ?_, rfl⟩
  unfold newTupleType
  exact loop_cons_done maxLen newField _ 0 _ _ _ _
    (body_negative maxLen newField _ 0 _ _ (-1) (by decide) (by decide))

end SchemaTotality

section SlotBinding

variable {Val : Type}

theorem declares_unique (sf : StructField) (p q : Nat) (hp : Declares sf p)
    (hq : Declares sf q) : p = q := by
  have h := hp.2.symm.trans hq.2
  exact Int.ofNat.inj (Option.some.inj h)

/-- One pass through the loop body for a member that declares the free position `p0` and
for which newField reports no error: the loop goes on, and the bound slots are those
bound before, and slot `p0` when newField returned a field. -/
theorem body_bind_step (maxLen : Nat) (newField : Nat → StructField → Except Error (Option (field Val)))
    (tName : String) (i : Nat) (sf : StructField) (slots : List (Option (field Val)))
    (p0 : Nat) (r : Option (field Val)) (hd : Declares sf p0)
    (hal : Allocatable maxLen (p0 + 1))
    (hfree : ∀ x, slots[p0]? ≠ some (some x)) (hn : newField i sf = Except.ok r) :
    ∃ slots1, newTupleTypeBody maxLen newField tName i sf slots = LoopStep.next slots1
      ∧ (∃ s, slots1[p0]? = some s)
      ∧ ∀ (p : Nat) (f : field Val), slots1[p]? = some (some f) ↔
          (slots[p]? = some (some f) ∨ (p = p0 ∧ r = some f)) := by
  obtain ⟨ht, ha⟩ := hd
  have hq : (0 : Int) ≤ (p0 : Int) := Int.ofNat_nonneg p0
  have htn : (p0 : Int).toNat = p0 := Int.toNat_ofNat p0
  obtain ⟨hgo, s, hs⟩ := goIndex_extendSlots slots (p0 : Int) hq
  rw [htn] at hs
  have hsnone : s = none := by
    cases s with
    | none => rfl
    | some x => exact absurd (extendSlots_getElem?_bound slots (p0 : Int) p0 x hs) (hfree x)
  subst hsnone
  have hlt : p0 < (extendSlots slots (p0 : Int)).length := by
    by_contra hcon
    rw [List.getElem?_eq_none (Nat.le_of_not_lt hcon)] at hs
    exact absurd hs (by simp)
  have hgrow : ∀ (p : Nat) (f : field Val),
      (extendSlots slots (p0 : Int))[p]? = some (some f) ↔ slots[p]? = some (some f) :=
    fun p f => ⟨extendSlots_getElem?_bound slots _ p f, extendSlots_getElem?_old slots _ p (some f)⟩
  have hbody : newTupleTypeBody maxLen newField tName i sf slots
      = LoopStep.next (match r with
          | none => extendSlots slots (p0 : Int)
          | some f => (extendSlots slots (p0 : Int)).set p0 (some f)) := by
    unfold newTupleTypeBody
    rw [if_neg ht]
    simp only [ha, growSlots_ok maxLen slots (p0 : Int) hq (by rw [htn]; exact hal), hgo, htn,
      hs, Option.getD_some, hn]
    cases r <;> rfl
  cases r with
  | none =>
      refine ⟨_, hbody, ⟨none, hs⟩, ?_⟩
      intro p f
      rw [hgrow p f]
      constructor
      · exact fun h => Or.inl h
      · rintro (h | ⟨_, h⟩)
        · exact h
        · exact absurd h (by simp)
  | some f0 =>
      refine ⟨_, hbody, ⟨some f0, List.getElem?_set_self hlt⟩, ?_⟩
      intro p f
      by_cases hp : p0 = p
      · subst hp
        rw [List.getElem?_set_self hlt]
        constructor
        · intro h
          exact Or.inr ⟨rfl, Option.some.inj h⟩
        · rintro (h | ⟨_, h⟩)
          · exact absurd h (hfree f)
          · rw [h]
      · simp only [List.getElem?_set_ne hp]
        rw [hgrow p f]
        constructor
        · exact fun h => Or.inl h
        · rintro (h | ⟨h, _⟩)
          · exact h
          · exact absurd h.symm hp

theorem body_untagged (maxLen : Nat) (newField : Nat → StructField → Except Error (Option (field Val)))
    (tName : String) (i : Nat) (sf : StructField) (slots : List (Option (field Val)))
    (ht : sf.Get "tuple" = "") :
    newTupleTypeBody maxLen newField tName i sf slots = LoopStep.next slots := by
  unfold newTupleTypeBody
  rw [if_pos ht]

/-- The loop over members that declare pairwise distinct non-negative positions, free in
the slot array, and for which newField reports no error: it returns a schema, whose bound
slots are those bound before and, for each member that declares `p` and got a field, slot
`p` bound to that field. -/
theorem loop_bind (maxLen : Nat) (newField : Nat → StructField → Except Error (Option (field Val)))
    (tName : String) (rest : List StructField) :
    ∀ (i : Nat) (slots : List (Option (field Val))),
      (∀ sf ∈ rest, sf.Get "tuple" ≠ "" → ∃ p : Nat, Atoi (sf.Get "tuple") = some (p : Int)) →
      (∀ (k : Nat) (sf : StructField), rest[k]? = some sf → sf.Get "tuple" ≠ "" →
        ∃ r, newField (i + k) sf = Except.ok r) →
      (∀ (k1 k2 : Nat) (sf1 sf2 : StructField) (p : Nat), k1 < k2 → rest[k1]? = some sf1 →
        rest[k2]? = some sf2 → Declares sf1 p → Declares sf2 p → False) →
      (∀ sf ∈ rest, ∀ p : Nat, Declares sf p → ∀ x, slots[p]? ≠ some (some x)) →
      (∀ sf ∈ rest, ∀ p : Nat, Declares sf p → Allocatable maxLen (p + 1)) →
      ∃ tt : tupleType Val,
        newTupleTypeLoop maxLen newField tName rest i slots = Outcome.ret (some tt, none)
        ∧ ∀ (p : Nat) (f : field Val), tt.tupleOrderedFields[p]? = some (some f) ↔
            (slots[p]? = some (some f)
              ∨ ∃ (k : Nat) (sf : StructField), rest[k]? = some sf ∧ Declares sf p
                  ∧ newField (i + k) sf = Except.ok (some f)) := by
  induction rest with
  | nil =>
      intro i slots _ _ _ _ _
      refine ⟨⟨slots⟩, rfl, fun p f => ⟨fun h => Or.inl h, ?_⟩⟩
      rintro (h | ⟨k, sf, hk, _⟩)
      · exact h
      · simp at hk
  | cons sf rest ih =>
      intro i slots h1 h2 h3 h4 h5
      have h5n : ∀ sf1 ∈ rest, ∀ p : Nat, Declares sf1 p → Allocatable maxLen (p + 1) :=
        fun sf1 hm => h5 sf1 (List.mem_cons_of_mem _ hm)
      have h1n : ∀ sf1 ∈ rest, sf1.Get "tuple" ≠ "" →
          ∃ p : Nat, Atoi (sf1.Get "tuple") = some (p : Int) :=
        fun sf1 hm => h1 sf1 (List.mem_cons_of_mem _ hm)
      have h2n : ∀ (k : Nat) (sf1 : StructField), rest[k]? = some sf1 → sf1.Get "tuple" ≠ "" →
          ∃ r, newField (i + 1 + k) sf1 = Except.ok r := by
        intro k sf1 hk ht
        have := h2 (k + 1) sf1 (by simpa using hk) ht
        have e1 : i + (k + 1) = i + 1 + k := by omega
        rwa [e1] at this
      have h3n : ∀ (k1 k2 : Nat) (sf1 sf2 : StructField) (p : Nat), k1 < k2 →
          rest[k1]? = some sf1 → rest[k2]? = some sf2 → Declares sf1 p → Declares sf2 p →
          False :=
        fun k1 k2 sf1 sf2 p hlt hk1 hk2 =>
          h3 (k1 + 1) (k2 + 1) sf1 sf2 p (by omega) (by simpa using hk1) (by simpa using hk2)
      have hshift : ∀ (p : Nat) (f : field Val),
          (∃ (k : Nat) (sf1 : StructField), (sf :: rest)[k]? = some sf1 ∧ Declares sf1 p
            ∧ newField (i + k) sf1 = Except.ok (some f))
          ↔ ((Declares sf p ∧ newField i sf = Except.ok (some f))
            ∨ ∃ (k : Nat) (sf1 : StructField), rest[k]? = some sf1 ∧ Declares sf1 p
                ∧ newField (i + 1 + k) sf1 = Except.ok (some f)) := by
        intro p f
        constructor
        · rintro ⟨k, sf1, hk, hd, hn⟩
          cases k with
          | zero =>
              simp only [List.getElem?_cons_zero, Option.some.injEq] at hk
              subst hk
              exact Or.inl ⟨hd, by simpa using hn⟩
          | succ k =>
              simp only [List.getElem?_cons_succ] at hk
              have e1 : i + (k + 1) = i + 1 + k := by omega
              rw [e1] at hn
              exact Or.inr ⟨k, sf1, hk, hd, hn⟩
        · rintro (⟨hd, hn⟩ | ⟨k, sf1, hk, hd, hn⟩)
          · exact ⟨0, sf, by simp, hd, by simpa using hn⟩
          · have e1 : i + (k + 1) = i + 1 + k := by omega
            exact ⟨k + 1, sf1, by simpa using hk, hd, by rw [e1]; exact hn⟩
      by_cases ht : sf.Get "tuple" = ""
      · have hbody := body_untagged maxLen newField tName i sf slots ht
        obtain ⟨tt, htt, hiff⟩ := ih (i + 1) slots h1n h2n h3n
          (fun sf1 hm => h4 sf1 (List.mem_cons_of_mem _ hm)) h5n
        refine ⟨tt, by rw [loop_cons_next maxLen newField tName i sf rest slots slots hbody, htt], ?_⟩
        intro p f
        rw [hiff p f, hshift p f]
        constructor
        · rintro (h | h)
          · exact Or.inl h
          · exact Or.inr (Or.inr h)
        · rintro (h | ⟨hd, _⟩ | h)
          · exact Or.inl h
          · exact absurd ht hd.1
          · exact Or.inr h
      · obtain ⟨p0, ha⟩ := h1 sf (List.mem_cons_self _ _) ht
        have hd0 : Declares sf p0 := ⟨ht, ha⟩
        obtain ⟨r, hn⟩ := h2 0 sf (by simp) ht
        have hn0 : newField i sf = Except.ok r := by simpa using hn
        obtain ⟨slots1, hbody, _, hstep⟩ := body_bind_step maxLen newField tName i sf slots p0 r hd0
          (h5 sf (List.mem_cons_self _ _) p0 hd0) (h4 sf (List.mem_cons_self _ _) p0 hd0) hn0
        have h4n : ∀ sf1 ∈ rest, ∀ p : Nat, Declares sf1 p →
            ∀ x, slots1[p]? ≠ some (some x) := by
          intro sf1 hm p hd x hx
          rcases (hstep p x).mp hx with hold | ⟨hp, _⟩
          · exact h4 sf1 (List.mem_cons_of_mem _ hm) p hd x hold
          · subst hp
            obtain ⟨k, hk⟩ := List.mem_iff_getElem?.mp hm
            exact h3 0 (k + 1) sf sf1 p (by omega) (by simp) (by simpa using hk) hd0 hd
        obtain ⟨tt, htt, hiff⟩ := ih (i + 1) slots1 h1n h2n h3n h4n h5n
        refine ⟨tt, by rw [loop_cons_next maxLen newField tName i sf rest slots slots1 hbody, htt], ?_⟩
        intro p f
        rw [hiff p f, hshift p f, hstep p f]
        constructor
        · rintro ((h | ⟨hp, hr⟩) | h)
          · exact Or.inl h
          · subst hp
            exact Or.inr (Or.inl ⟨hd0, by rw [hn0, hr]⟩)
          · exact Or.inr (Or.inr h)
        · rintro (h | ⟨hd, hnf⟩ | h)
          · exact Or.inl (Or.inl h)
          · have hp : p = p0 := declares_unique sf p p0 hd hd0
            rw [hn0] at hnf
            exact Or.inl (Or.inr ⟨hp, Except.ok.inj hnf⟩)
          · exact Or.inr h

/-- C13, as amended. Slot binding: when the members with a tuple tag declare pairwise
distinct non-negative integer positions, a slot array of p + 1 slots can be allocated for
each declared position p, and newField reports no error for them, newTupleType succeeds;
slot p is bound to a field exactly when some member declares p and newField returned that
field for it, so a member without a tuple tag binds no slot; the slot of a member that got
a field is bound to that field, and the slot of a member for which newField returned no
field is empty. -/
theorem slot_binding (maxLen : Nat) (newField : Nat → StructField → Except Error (Option (field Val)))
    (t : StructType)
    (hpos : ∀ sf ∈ t.Fields, sf.Get "tuple" ≠ "" →
      ∃ p : Nat, Atoi (sf.Get "tuple") = some (p : Int))
    (hdist : ∀ (i j : Nat) (sfi sfj : StructField) (p : Nat), i < j →
      t.Fields[i]? = some sfi → t.Fields[j]? = some sfj → Declares sfi p → Declares sfj p →
      False)
    (hnf : ∀ (i : Nat) (sf : StructField), t.Fields[i]? = some sf → sf.Get "tuple" ≠ "" →
      ∃ r, newField i sf = Except.ok r)
    (hfit : ∀ sf ∈ t.Fields, ∀ p : Nat, Declares sf p → Allocatable maxLen (p + 1)) :
    ∃ tt : tupleType Val,
      newTupleType maxLen newField t = Outcome.ret (some tt, none)
      ∧ (∀ (p : Nat) (f : field Val), tt.tupleOrderedFields[p]? = some (some f) ↔
          ∃ (i : Nat) (sf : StructField), t.Fields[i]? = some sf ∧ Declares sf p
            ∧ newField i sf = Except.ok (some f))
      ∧ (∀ (i : Nat) (sf : StructField) (p : Nat) (f : field Val), t.Fields[i]? = some sf →
          Declares sf p → newField i sf = Except.ok (some f) →
          tt.tupleOrderedFields[p]? = some (some f))
      ∧ (∀ (i : Nat) (sf : StructField) (p : Nat), t.Fields[i]? = some sf →
          Declares sf p → newField i sf = Except.ok none →
          tt.tupleOrderedFields[p]? = some none) := by
  have hfree : ∀ sf ∈ t.Fields, ∀ p : Nat, Declares sf p →
      ∀ x, (List.replicate t.Fields.length (none : Option (field Val)))[p]? ≠ some (some x) := by
    intro sf _ p _ x hx
    have := List.getElem?_mem hx
    simp at this
  obtain ⟨tt, htt, hiff⟩ := loop_bind maxLen newField t.Name t.Fields 0
    (List.replicate t.Fields.length none) hpos
    (fun k sf hk ht => by simpa using hnf k sf hk ht) hdist hfree hfit
  have hiff1 : ∀ (p : Nat) (f : field Val), tt.tupleOrderedFields[p]? = some (some f) ↔
      ∃ (i : Nat) (sf : StructField), t.Fields[i]? = some sf ∧ Declares sf p
        ∧ newField i sf = Except.ok (some f) := by
    intro p f
    rw [hiff p f]
    constructor
    · rintro (h | ⟨k, sf, hk, hd, hn⟩)
      · have := List.getElem?_mem h
        simp at this
      · exact ⟨k, sf, hk, hd, by simpa using hn⟩
    · rintro ⟨k, sf, hk, hd, hn⟩
      exact Or.inr ⟨k, sf, hk, hd, by simpa using hn⟩
  have hsucc : newTupleType maxLen newField t = Outcome.ret (some tt, none) := htt
  refine ⟨tt, hsucc, hiff1, ?_, ?_⟩
  · intro i sf p f hi hd hn
    exact (hiff1 p f).mpr ⟨i, sf, hi, hd, hn⟩
  · intro i sf p hi hd hn
    obtain ⟨hlen, _⟩ := newTupleType_schema maxLen newField t tt hsucc
    have hps : positionSucc sf = p + 1 := by
      simp only [positionSucc, hd.1, hd.2, if_false]
      omega
    have hle := positionSucc_le_max t.Fields sf (List.getElem?_mem hi)
    have hlt : p < tt.tupleOrderedFields.length := by omega
    rw [List.getElem?_eq_getElem hlt]
    cases hs : tt.tupleOrderedFields[p] with
    | none => rfl
    | some f =>
        exfalso
        obtain ⟨j, sfj, hj, hdj, hnj⟩ :=
          (hiff1 p f).mp (by rw [List.getElem?_eq_getElem hlt, hs])
        rcases Nat.lt_trichotomy i j with hij | hij | hij
        · exact hdist i j sf sfj p hij hi hj hd hdj
        · subst hij
          rw [hi] at hj
          have : sf = sfj := Option.some.inj hj
          subst this
          rw [hn] at hnj
          exact absurd hnj (by simp)
        · exact hdist j i sfj sf p hij hj hi hdj hd

/-- Witness of C13 as amended: the documented `Config` type, Admin at "0" and TZ at "1", gives slot 0
bound to the field of Admin and slot 1 bound to the field of TZ. -/
theorem slot_binding_witness :
    newTupleType goMaxLen exampleNewField Config
        = Outcome.ret (some (tupleType.mk [some (boolStringField 0), some (stringField 1)]), none)
    ∧ ∃ tt : tupleType GoVal,
      newTupleType goMaxLen exampleNewField Config = Outcome.ret (some tt, none)
      ∧ (∀ (p : Nat) (f : field GoVal), tt.tupleOrderedFields[p]? = some (some f) ↔
          ∃ (i : Nat) (sf : StructField), Config.Fields[i]? = some sf ∧ Declares sf p
            ∧ exampleNewField i sf = Except.ok (some f))
      ∧ (∀ (i : Nat) (sf : StructField) (p : Nat) (f : field GoVal),
          Config.Fields[i]? = some sf → Declares sf p →
          exampleNewField i sf = Except.ok (some f) →
          tt.tupleOrderedFields[p]? = some (some f))
      ∧ (∀ (i : Nat) (sf : StructField) (p : Nat), Config.Fields[i]? = some sf →
          Declares sf p → exampleNewField i sf = Except.ok none →
          tt.tupleOrderedFields[p]? = some none) :=
  ⟨rfl,
    slot_binding goMaxLen exampleNewField Config
      (by
        intro sf hsf _
        simp only [Config, List.mem_cons, List.mem_singleton, List.not_mem_nil, or_false] at hsf
        rcases hsf with rfl | rfl
        · exact ⟨0, by decide⟩
        · exact ⟨1, by decide⟩)
      (by
        intro i j sfi sfj p hij hi hj hdi hdj
        match i, j, hij, hi, hj with
        | 0, 1, _, hi, hj =>
            simp only [Config, List.getElem?_cons_zero, List.getElem?_cons_succ,
              Option.some.injEq] at hi hj
            subst hi hj
            exact absurd (hdi.2.trans hdj.2.symm) (by decide)
        | 0, j + 2, _, _, hj => simp [Config] at hj
        | i + 1, j + 2, _, _, hj => simp [Config] at hj
        | i + 1, 0, hlt, _, _ => omega
        | i + 1, 1, hlt, _, _ => omega
        | 0, 0, hlt, _, _ => omega)
      (by
        intro i sf hi _
        match i, hi with
        | 0, hi =>
            simp only [Config, List.getElem?_cons_zero, Option.some.injEq] at hi
            subst hi
            exact ⟨_, rfl⟩
        | 1, hi =>
            simp only [Config, List.getElem?_cons_succ, List.getElem?_cons_zero,
              Option.some.injEq] at hi
            subst hi
            exact ⟨_, rfl⟩
        | i + 2, hi => simp [Config] at hi)
      (by
        intro sf hsf p hd
        simp only [Config, List.mem_cons, List.mem_singleton, List.not_mem_nil, or_false] at hsf
        rcases hsf with rfl | rfl
        · have hp : p = 0 := declares_unique _ p 0 hd ⟨by decide, by decide⟩
          subst hp
          decide
        · have hp : p = 1 := declares_unique _ p 1 hd ⟨by decide, by decide⟩
          subst hp
          decide)⟩

/-- Counterexample to C13 as stated: the only member of `Huge` declares the non-negative
integer 2^63 - 1 and newField returns a field for it, yet newTupleType does not succeed:
the extension of the slot array at lines 114-117 panics, whatever the runtime's limit. -/
theorem slot_binding_fails_on_huge_position :
    (∃ sf, Huge.Fields = [sf] ∧ Declares sf (2 ^ 63 - 1)
      ∧ exampleNewField 0 sf = Except.ok (some (stringField 0)))
    ∧ newTupleType goMaxLen exampleNewField Huge = Outcome.panic
    ∧ ∀ maxLen : Nat, newTupleType maxLen exampleNewField Huge = Outcome.panic := by
  have hall : ∀ maxLen : Nat, newTupleType maxLen exampleNewField Huge = Outcome.panic := by
    intro maxLen
    unfold newTupleType
    exact loop_cons_done maxLen exampleNewField _ 0 _ [] _ _
      (body_unallocatable maxLen exampleNewField _ 0 _ _ 9223372036854775807 (by decide)
        (by decide) (fun h => absurd h.2 (by decide)))
  exact ⟨⟨_, rfl, ⟨by decide, by decide⟩, rfl⟩, hall goMaxLen, hall⟩

end SlotBinding

section SchemaLengthActual

variable {Val : Type}

/-- C16. Actual schema length: on success the slot array has length max(n, 1 + the largest
declared position), n being the number of declared members; it is n when no member
declares a position, and it is never less than n.  Every member with a tuple tag then
declares a non-negative integer q, and 1 + q is at most the maximum, which some member
attains.  And newTupleType does succeed with a slot array of that length when the tagged
members declare pairwise distinct non-negative positions whose slot arrays can be
allocated and newField reports no error: lines 114-117 extend the array to 1 + position. -/
theorem schema_length_actual
    (maxLen : Nat) (newField : Nat → StructField → Except Error (Option (field Val)))
    (t : StructType) :
    (∀ tt : tupleType Val, newTupleType maxLen newField t = Outcome.ret (some tt, none) →
      tt.tupleOrderedFields.length = max t.Fields.length (maxPositionSucc t.Fields)
      ∧ t.Fields.length ≤ tt.tupleOrderedFields.length
      ∧ ((∀ sf ∈ t.Fields, sf.Get "tuple" = "") →
          tt.tupleOrderedFields.length = t.Fields.length)
      ∧ (∀ sf ∈ t.Fields, sf.Get "tuple" ≠ "" →
          ∃ q : Int, Atoi (sf.Get "tuple") = some q ∧ 0 ≤ q
            ∧ positionSucc sf = 1 + q.toNat ∧ 1 + q.toNat ≤ maxPositionSucc t.Fields)
      ∧ (maxPositionSucc t.Fields = 0
          ∨ ∃ sf ∈ t.Fields, positionSucc sf = maxPositionSucc t.Fields))
    ∧ ((∀ sf ∈ t.Fields, sf.Get "tuple" ≠ "" →
          ∃ p : Nat, Atoi (sf.Get "tuple") = some (p : Int)) →
        (∀ (i j : Nat) (sfi sfj : StructField) (p : Nat), i < j →
          t.Fields[i]? = some sfi → t.Fields[j]? = some sfj → Declares sfi p →
          Declares sfj p → False) →
        (∀ (i : Nat) (sf : StructField), t.Fields[i]? = some sf → sf.Get "tuple" ≠ "" →
          ∃ r, newField i sf = Except.ok r) →
        (∀ sf ∈ t.Fields, ∀ p : Nat, Declares sf p → Allocatable maxLen (p + 1)) →
        ∃ tt : tupleType Val, newTupleType maxLen newField t = Outcome.ret (some tt, none)
          ∧ tt.tupleOrderedFields.length = max t.Fields.length (maxPositionSucc t.Fields)) := by
  constructor
  · intro tt h
    obtain ⟨hlen, _⟩ := newTupleType_schema maxLen newField t tt h
    refine ⟨hlen, by omega, ?_, ?_, maxPositionSucc_attained t.Fields⟩
    · intro hall
      rw [hlen, maxPositionSucc_untagged t.Fields hall]
      omega
    · intro sf hsf ht
      obtain ⟨q, ha, hq⟩ :=
        loop_success_annotations maxLen newField t.Name t.Fields 0 _ tt h sf hsf ht
      have hps : positionSucc sf = 1 + q.toNat := by
        simp only [positionSucc, ht, ha, if_false]
        omega
      exact ⟨q, ha, hq, hps, by rw [← hps]; exact positionSucc_le_max t.Fields sf hsf⟩
  · intro hpos hdist hnf hfit
    have hfree : ∀ sf ∈ t.Fields, ∀ p : Nat, Declares sf p →
        ∀ x, (List.replicate t.Fields.length (none : Option (field Val)))[p]?
          ≠ some (some x) := by
      intro sf _ p _ x hx
      have := List.getElem?_mem hx
      simp at this
    obtain ⟨tt, htt, _⟩ := loop_bind maxLen newField t.Name t.Fields 0
      (List.replicate t.Fields.length none) hpos
      (fun k sf hk ht => by simpa using hnf k sf hk ht) hdist hfree hfit
    have hsucc : newTupleType maxLen newField t = Outcome.ret (some tt, none) := htt
    exact ⟨tt, hsucc, (newTupleType_schema maxLen newField t tt hsucc).1⟩

/-- Witness of C16: `Sparse` has one member, at position 2, and newTupleType gives it three
slots, the array being extended from 1 to 1 + 2 slots; `ConfigNote` has three members and
positions 0 and 1, and three slots. -/
theorem schema_length_actual_witness :
    newTupleType goMaxLen exampleNewField Sparse
        = Outcome.ret (some (tupleType.mk [none, none, some (stringField 0)]), none)
    ∧ (tupleType.mk [none, none, some (stringField 0)]).tupleOrderedFields.length
        = max Sparse.Fields.length (maxPositionSucc Sparse.Fields)
    ∧ Sparse.Fields.length = 1
    ∧ max Sparse.Fields.length (maxPositionSucc Sparse.Fields) = 3
    ∧ newTupleType goMaxLen exampleNewField ConfigNote
        = Outcome.ret (some (tupleType.mk [some (boolStringField 0), some (stringField 1),
            none]), none)
    ∧ (tupleType.mk [some (boolStringField 0), some (stringField 1),
          none]).tupleOrderedFields.length
        = max ConfigNote.Fields.length (maxPositionSucc ConfigNote.Fields)
    ∧ max ConfigNote.Fields.length (maxPositionSucc ConfigNote.Fields) = 3
    ∧ ∃ tt : tupleType GoVal,
        newTupleType goMaxLen exampleNewField Sparse = Outcome.ret (some tt, none)
        ∧ tt.tupleOrderedFields.length
          = max Sparse.Fields.length (maxPositionSucc Sparse.Fields) :=
  ⟨rfl,
    ((schema_length_actual goMaxLen exampleNewField Sparse).1
      (tupleType.mk [none, none, some (stringField 0)]) rfl).1,
    rfl, by decide, rfl,
    ((schema_length_actual goMaxLen exampleNewField ConfigNote).1
      (tupleType.mk [some (boolStringField 0), some (stringField 1), none]) rfl).1,
    by decide,
    (schema_length_actual goMaxLen exampleNewField Sparse).2
      (by
        intro sf hsf _
        simp only [Sparse, List.mem_singleton] at hsf
        subst hsf
        exact ⟨2, by decide⟩)
      (by
        intro i j sfi sfj p hij hi hj _ _
        have hj2 : Sparse.Fields[j]? = none :=
          List.getElem?_eq_none (by simp only [Sparse, List.length_singleton]; omega)
        rw [hj2] at hj
        exact absurd hj (by simp))
      (by
        intro i sf hi _
        match i, hi with
        | 0, hi =>
            simp only [Sparse, List.getElem?_cons_zero, Option.some.injEq] at hi
            subst hi
            exact ⟨_, rfl⟩
        | i + 1, hi => simp [Sparse] at hi)
      (by
        intro sf hsf p hd
        simp only [Sparse, List.mem_singleton] at hsf
        subst hsf
        have hp : p = 2 := declares_unique _ p 2 hd ⟨by decide, by decide⟩
        subst hp
        decide)⟩

end SchemaLengthActual

end gossie
